import Mathlib

/-!
Verification of the octave.rs parser grammar (src/octave-parser/src/grammar.pest).

The grammar is a pest PEG. We embed each grammar rule as an executable Lean
function over a list of characters, returning the parsed value together with
the unconsumed rest of the input ( PEG-style: ordered choice commits, greedy
repetition never backtracks into a succeeded iteration, a failed optional
group consumes nothing).

Pest-specific conventions embedded here:
- the implicit WHITESPACE rule (line 8 of the grammar, the COMMENT rule on
  line 7 is commented out in the source) is inserted between the elements of
  a sequence and between repetition iterations of every non-atomic rule; we
  realize it with explicit skipWS calls at those points;
- atomic rules (identifier, string, number, the char rules) and
  compound-atomic rules (line, single_value) take no implicit whitespace;
- the AST shapes (BinaryChain, Call, Matrix, Range, Assignment, the
  suppressed flag, string escape decoding) are the consumer side of the
  parse; that code is not part of the sources, so these are modelled from
  the spec: data model of section 3 and the contracts of section 4.

One divergence from the source that cannot be avoided: pest ALPHABETIC is
the Unicode Alphabetic property; we embed its ASCII fragment Char.isAlpha.
Every claim below only exercises ASCII identifiers, where the two coincide.

All recursive rule functions take a fuel argument (first parameter); parsing
runs with fuel (input length + 64), which is far above the fixed recursion
depth and iteration count any of the inputs below can reach.
-/

namespace Octave

/-- Operators of the binary chain, grammar line 20-26: op = add sub mul div pow access. -/
inductive Op where
  | add | sub | mul | div | pow | access

/-- A literal: Number (source text), String (decoded text), Identifier (text);
the only value forms permitted inside a matrix row (spec section 3). -/
inductive Lit where
  | num : List Char → Lit
  | str : List Char → Lit
  | ident : List Char → Lit

/-- Expressions, modelled from the spec data model (section 3). A binary
chain keeps its operator pairs in strict left-to-right order. -/
inductive Expr where
  | lit : Lit → Expr
  | binaryChain : Expr → List (Op × Expr) → Expr
  | call : List Char → List Expr → Expr
  | matrix : List (List Lit) → Expr
  | range : List Expr → Expr

/-- Statements, modelled from the spec data model (section 3): the
suppressed flag records a terminating semicolon on an expression statement. -/
inductive Statement where
  | assignment : List Char → Expr → Statement
  | exprStatement : Expr → Bool → Statement

/-- A program is an ordered sequence of statements (spec section 3). -/
abbrev Program := List Statement

/-- WHITESPACE = _\x7b " " | "\t" | "\r" | "\n" \x7d (grammar line 8). -/
def isWS (c : Char) : Bool := c == ' ' || c == '\t' || c == '\r' || c == '\n'

/-- Greedy skip of implicit whitespace (pest inserts WHITESPACE* between
sequence elements of non-atomic rules; COMMENT is disabled in the source). -/
def skipWS (l : List Char) : List Char := l.dropWhile isWS

/-- First character of an identifier: ALPHABETIC | "_" (grammar line 35). -/
def identStart (c : Char) : Bool := c.isAlpha || c == '_'

/-- Continuation character of an identifier: ALPHABETIC | ASCII_DIGIT | "_". -/
def identCont (c : Char) : Bool := c.isAlpha || c.isDigit || c == '_'

/-- identifier = @\x7b (ALPHABETIC | "_") ~ (ALPHABETIC | ASCII_DIGIT | "_")* \x7d:
atomic rule, greedy star. -/
def identifier (l : List Char) : Option (List Char × List Char) :=
  match l with
  | [] => none
  | c :: r =>
    if identStart c then some (c :: r.takeWhile identCont, r.dropWhile identCont)
    else none

/-- ASCII_NONZERO_DIGIT of pest. -/
def isNonzeroDigit (c : Char) : Bool := c.isDigit && !(c == '0')

/-- Leading "-"? of the number rule (grammar line 48). -/
def numberSign (l : List Char) : List Char × List Char :=
  match l with
  | [] => ([], [])
  | c :: r => if c = '-' then (['-'], r) else ([], c :: r)

/-- Integer part: "0" | ASCII_NONZERO_DIGIT ~ ASCII_DIGIT* (grammar line 49,
ordered choice: a leading 0 is taken alone). -/
def numberIntPart (l : List Char) : Option (List Char × List Char) :=
  match l with
  | [] => none
  | c :: r =>
    if c = '0' then some (['0'], r)
    else if isNonzeroDigit c then some (c :: r.takeWhile Char.isDigit, r.dropWhile Char.isDigit)
    else none

/-- Fractional part: ("." ~ ASCII_DIGIT*)? (grammar line 50); a bare dot with
no following digits is accepted. Returns consumed text and rest. -/
def numberFrac (l : List Char) : List Char × List Char :=
  match l with
  | [] => ([], [])
  | c :: r =>
    if c = '.' then ('.' :: r.takeWhile Char.isDigit, r.dropWhile Char.isDigit)
    else ([], c :: r)

/-- Exponent part: (^"e" ~ ("+" | "-")? ~ ASCII_DIGIT+)? (grammar line 51);
if no digit follows, the whole optional group matches nothing. -/
def numberExp (l : List Char) : List Char × List Char :=
  match l with
  | [] => ([], [])
  | c :: r =>
    if c = 'e' ∨ c = 'E' then
      let sp : List Char × List Char :=
        match r with
        | [] => ([], [])
        | c2 :: r2 => if c2 = '+' ∨ c2 = '-' then ([c2], r2) else ([], c2 :: r2)
      let ds := sp.2.takeWhile Char.isDigit
      if ds = [] then ([], c :: r) else (c :: sp.1 ++ ds, sp.2.dropWhile Char.isDigit)
    else ([], c :: r)

/-- number = @\x7b "-"? ~ ("0" | nonzero ~ digits*) ~ ("." ~ digits*)? ~
(^"e" ~ sign? ~ digits+)? \x7d (grammar lines 47-52). Returns the consumed
source text of the literal and the rest of the input. -/
def number (l : List Char) : Option (List Char × List Char) :=
  let s := numberSign l
  match numberIntPart s.2 with
  | none => none
  | some ip =>
    let fp := numberFrac ip.2
    let ep := numberExp fp.2
    some (s.1 ++ ip.1 ++ fp.1 ++ ep.1, ep.2)

/-- Decoded value of a single-character escape after a backslash in a
double-quoted string: " \ / b f n r t (grammar line 39; decoded values
modelled from the spec, section 4.1). -/
def escMap (c : Char) : Option Char :=
  if c = '"' then some '"'
  else if c = '\\' then some '\\'
  else if c = '/' then some '/'
  else if c = 'b' then some (Char.ofNat 8)
  else if c = 'f' then some (Char.ofNat 12)
  else if c = 'n' then some '\n'
  else if c = 'r' then some '\r'
  else if c = 't' then some '\t'
  else none

/-- ASCII_HEX_DIGIT of pest. -/
def isHexDigit (c : Char) : Bool :=
  c.isDigit || ('a' ≤ c && c ≤ 'f') || ('A' ≤ c && c ≤ 'F')

/-- Numeric value of a hex digit. -/
def hexVal (c : Char) : Nat :=
  if c.isDigit then c.toNat - 48 else if 'a' ≤ c then c.toNat - 87 else c.toNat - 55

/-- Greedy char_double* (grammar lines 37-41): each iteration is
!("\"" | "\\") ~ ANY, or a backslash escape, or \u with four hex digits.
Returns the decoded characters and the rest (starting at the first position
where char_double fails). Decoding is modelled from the spec (section 4.1). -/
def charsDouble : List Char → List Char × List Char
  | [] => ([], [])
  | '"' :: r => ([], '"' :: r)
  | '\\' :: 'u' :: h1 :: h2 :: h3 :: h4 :: r =>
    if isHexDigit h1 && isHexDigit h2 && isHexDigit h3 && isHexDigit h4 then
      let p := charsDouble r
      (Char.ofNat (((hexVal h1 * 16 + hexVal h2) * 16 + hexVal h3) * 16 + hexVal h4) :: p.1,
        p.2)
    else ([], '\\' :: 'u' :: h1 :: h2 :: h3 :: h4 :: r)
  | '\\' :: c :: r =>
    match escMap c with
    | some d => let p := charsDouble r; (d :: p.1, p.2)
    | none => ([], '\\' :: c :: r)
  | ['\\'] => ([], ['\\'])
  | c :: r => let p := charsDouble r; (c :: p.1, p.2)

/-- Greedy char_simple* (grammar lines 42-46). The first alternative of
char_simple in the source is !("'" ~ "\\") ~ ANY: the negative lookahead is
over the two-character SEQUENCE quote-then-backslash (unlike char_double,
whose lookahead is the alternation !("\"" | "\\")). Hence ANY consumes every
character - including a quote or a backslash - unless the input starts with
the exact pair '\. When the input does start with that pair, the two escape
alternatives both require a leading backslash, see the head being the quote,
and fail, so the repetition stops there. The escape alternatives of
char_simple are therefore unreachable, and this function is the faithful
embedding of the rule as written. -/
def charsSimple : List Char → List Char × List Char
  | [] => ([], [])
  | '\'' :: '\\' :: r => ([], '\'' :: '\\' :: r)
  | c :: r => let p := charsSimple r; (c :: p.1, p.2)

/-- string = $\x7b ("\"" ~ char_double* ~ "\"") | ("'" ~ char_simple* ~ "'") \x7d
(grammar line 36). Returns the decoded text and the rest. -/
def string (l : List Char) : Option (List Char × List Char) :=
  match l with
  | [] => none
  | c :: r =>
    if c = '"' then
      let p := charsDouble r
      match p.2 with
      | c2 :: r2 => if c2 = '"' then some (p.1, r2) else none
      | [] => none
    else if c = '\'' then
      let p := charsSimple r
      match p.2 with
      | c2 :: r2 => if c2 = '\'' then some (p.1, r2) else none
      | [] => none
    else none

/-- literal = _\x7b string | number | identifier \x7d (grammar line 33,
ordered choice). -/
def literal (l : List Char) : Option (Lit × List Char) :=
  match string l with
  | some p => some (.str p.1, p.2)
  | none =>
    match number l with
    | some p => some (.num p.1, p.2)
    | none =>
      match identifier l with
      | some p => some (.ident p.1, p.2)
      | none => none

/-- Separator inside a matrix row (grammar line 32):
(WHITESPACE* ~ "," ~ WHITESPACE*) | WHITESPACE+, ordered choice. Returns the
position after the separator. -/
def lineSep (l : List Char) : Option (List Char) :=
  match l.dropWhile isWS with
  | c :: r =>
    if c = ',' then some (r.dropWhile isWS)
    else
      match l with
      | c0 :: _ => if isWS c0 then some (l.dropWhile isWS) else none
      | [] => none
  | [] =>
    match l with
    | c0 :: _ => if isWS c0 then some (l.dropWhile isWS) else none
    | [] => none

/-- The (separator ~ literal)* tail of a matrix row; a failed iteration
(separator without a following literal) is rolled back completely. -/
def lineTail : Nat → List Lit → List Char → Option (List Lit × List Char)
  | 0, _, _ => none
  | f + 1, acc, l =>
    match lineSep l with
    | none => some (acc, l)
    | some r1 =>
      match literal r1 with
      | none => some (acc, l)
      | some p => lineTail f (acc ++ [p.1]) p.2

/-- line = $\x7b (literal ~ (sep ~ literal)*)? \x7d (grammar line 32):
compound-atomic, so no implicit whitespace; the whole body is optional, so a
row may be empty and the rule never fails (given fuel for its iterations). -/
def line (f : Nat) (l : List Char) : Option (List Lit × List Char) :=
  match literal l with
  | none => some ([], l)
  | some p => lineTail f [p.1] p.2

/-- op = _\x7b add | sub | mul | div | pow | access \x7d (grammar lines 20-26). -/
def op (l : List Char) : Option (Op × List Char) :=
  match l with
  | [] => none
  | c :: r =>
    if c = '+' then some (.add, r)
    else if c = '-' then some (.sub, r)
    else if c = '*' then some (.mul, r)
    else if c = '/' then some (.div, r)
    else if c = '^' then some (.pow, r)
    else if c = '.' then some (.access, r)
    else none

/-- Closing step of a call: implicit whitespace then ")" (grammar line 28). -/
def callClose (id : List Char) (args : List Expr) (l : List Char) :
    Option (Expr × List Char) :=
  match skipWS l with
  | c :: r => if c = ')' then some (.call id args, r) else none
  | [] => none

mutual

/-- expr = \x7b range_operand ~ (":" ~ range_operand ~ (":" ~ range_operand)?)? \x7d
(grammar line 16): at most three colon-separated parts; a failed optional
group consumes nothing. With no colon the operand is returned bare (no Range
wrapper, spec section 4.3). -/
def expr : Nat → List Char → Option (Expr × List Char)
  | 0, _ => none
  | f + 1, l =>
    match range_operand f l with
    | none => none
    | some p =>
      match skipWS p.2 with
      | c :: r2 =>
        if c = ':' then
          match range_operand f (skipWS r2) with
          | none => some p
          | some q =>
            match skipWS q.2 with
            | c2 :: r4 =>
              if c2 = ':' then
                match range_operand f (skipWS r4) with
                | none => some (.range [p.1, q.1], q.2)
                | some t => some (.range [p.1, q.1, t.1], t.2)
              else some (.range [p.1, q.1], q.2)
            | [] => some (.range [p.1, q.1], q.2)
        else some p
      | [] => some p

/-- range_operand = _\x7b binary | value \x7d (grammar line 17). -/
def range_operand : Nat → List Char → Option (Expr × List Char)
  | 0, _ => none
  | f + 1, l =>
    match binary f l with
    | some p => some p
    | none => value f l

/-- binary = \x7b atom ~ (op ~ atom)* \x7d (grammar line 18). A chain with no
operator pairs collapses to its single atom (spec section 3 invariant: every
BinaryChain has at least one pair). -/
def binary : Nat → List Char → Option (Expr × List Char)
  | 0, _ => none
  | f + 1, l =>
    match atom f l with
    | none => none
    | some p =>
      match binaryTail f [] p.2 with
      | none => none
      | some q =>
        match q.1 with
        | [] => some (p.1, q.2)
        | _ :: _ => some (.binaryChain p.1 q.1, q.2)

/-- The (op ~ atom)* tail of a binary chain, with implicit whitespace before
the operator and between operator and atom; a failed iteration rolls back. -/
def binaryTail : Nat → List (Op × Expr) → List Char → Option (List (Op × Expr) × List Char)
  | 0, _, _ => none
  | f + 1, acc, l =>
    match op (skipWS l) with
    | none => some (acc, l)
    | some o =>
      match atom f (skipWS o.2) with
      | none => some (acc, l)
      | some p => binaryTail f (acc ++ [(o.1, p.1)]) p.2

/-- atom = _\x7b call | value \x7d (grammar line 19). -/
def atom : Nat → List Char → Option (Expr × List Char)
  | 0, _ => none
  | f + 1, l =>
    match call f l with
    | some p => some p
    | none => value f l

/-- call = \x7b identifier ~ "(" ~ (expr ~ ("," ~ expr)*)? ~ ")" \x7d (grammar
line 28): zero or more comma-separated full expressions as arguments. -/
def call : Nat → List Char → Option (Expr × List Char)
  | 0, _ => none
  | f + 1, l =>
    match identifier l with
    | none => none
    | some idp =>
      match skipWS idp.2 with
      | c :: r2 =>
        if c = '(' then
          match expr f (skipWS r2) with
          | none => callClose idp.1 [] r2
          | some e1 =>
            match callArgs f [e1.1] e1.2 with
            | none => none
            | some a => callClose idp.1 a.1 a.2
        else none
      | [] => none

/-- The ("," ~ expr)* tail of a call argument list; a comma not followed by
an expression is rolled back. -/
def callArgs : Nat → List Expr → List Char → Option (List Expr × List Char)
  | 0, _, _ => none
  | f + 1, acc, l =>
    match skipWS l with
    | c :: r1 =>
      if c = ',' then
        match expr f (skipWS r1) with
        | none => some (acc, l)
        | some p => callArgs f (acc ++ [p.1]) p.2
      else some (acc, l)
    | [] => some (acc, l)

/-- value = _\x7b matrix | single_value \x7d with single_value = $\x7b literal \x7d
(grammar lines 29-31). -/
def value : Nat → List Char → Option (Expr × List Char)
  | 0, _ => none
  | f + 1, l =>
    match matrix f l with
    | some p => some p
    | none =>
      match literal l with
      | some p => some (.lit p.1, p.2)
      | none => none

/-- matrix = \x7b "[" ~ (line ~ (";" ~ line)*)? ~ "]" \x7d (grammar line 30);
line never fails, so the optional group is always taken. -/
def matrix : Nat → List Char → Option (Expr × List Char)
  | 0, _ => none
  | f + 1, l =>
    match l with
    | c :: r1 =>
      if c = '[' then
        match line f (skipWS r1) with
        | none => none
        | some row1 =>
          match matrixTail f [row1.1] row1.2 with
          | none => none
          | some rows =>
            match skipWS rows.2 with
            | c2 :: r4 => if c2 = ']' then some (.matrix rows.1, r4) else none
            | [] => none
      else none
    | [] => none

/-- The (";" ~ line)* tail of a matrix, with implicit whitespace around the
semicolon. -/
def matrixTail : Nat → List (List Lit) → List Char → Option (List (List Lit) × List Char)
  | 0, _, _ => none
  | f + 1, acc, l =>
    match skipWS l with
    | c :: r1 =>
      if c = ';' then
        match line f (skipWS r1) with
        | none => none
        | some row => matrixTail f (acc ++ [row.1]) row.2
      else some (acc, l)
    | [] => some (acc, l)

end

/-- assignment = \x7b identifier ~ "=" ~ expr \x7d (grammar line 14). -/
def assignment : Nat → List Char → Option ((List Char × Expr) × List Char)
  | 0, _ => none
  | f + 1, l =>
    match identifier l with
    | none => none
    | some idp =>
      match skipWS idp.2 with
      | c :: r =>
        if c = '=' then
          match expr f (skipWS r) with
          | none => none
          | some p => some ((idp.1, p.1), p.2)
        else none
      | [] => none

/-- statement = _\x7b assignment | expr \x7d (grammar line 12): assignment is
tried first; a bare expression becomes an unsuppressed expression statement
(AST shape modelled from the spec, sections 3 and 4.4). -/
def statement : Nat → List Char → Option (Statement × List Char)
  | 0, _ => none
  | f + 1, l =>
    match assignment f l with
    | some p => some (.assignment p.1.1 p.1.2, p.2)
    | none =>
      match expr f l with
      | some p => some (.exprStatement p.1 false, p.2)
      | none => none

/-- Modelled from the spec: a terminating semicolon sets the suppressed flag
of an expression statement (section 3); the spec gives Assignment no such
flag, so it is unchanged. -/
def suppress : Statement → Statement
  | .assignment t v => .assignment t v
  | .exprStatement v _ => .exprStatement v true

/-- statement_semi = \x7b statement ~ ";" \x7d (grammar line 13). -/
def statement_semi : Nat → List Char → Option (Statement × List Char)
  | 0, _ => none
  | f + 1, l =>
    match statement f l with
    | none => none
    | some p =>
      match skipWS p.2 with
      | c :: r => if c = ';' then some (suppress p.1, r) else none
      | [] => none

/-- statements = _\x7b (statement_semi | statement)* \x7d (grammar line 11):
zero or more statements, implicit whitespace between iterations. The rest we
return may have had trailing whitespace consumed by a failed final
iteration; the only caller (toplevel) skips whitespace again before EOI, so
this is observationally the pest behavior. -/
def statements : Nat → List Char → Option (List Statement × List Char)
  | 0, _ => none
  | f + 1, l =>
    match statement_semi f l with
    | some p =>
      match statements f (skipWS p.2) with
      | none => none
      | some q => some (p.1 :: q.1, q.2)
    | none =>
      match statement f l with
      | some p =>
        match statements f (skipWS p.2) with
        | none => none
        | some q => some (p.1 :: q.1, q.2)
      | none => some ([], l)

/-- toplevel = \x7b SOI ~ statements? ~ EOI \x7d (grammar line 10): leading
whitespace after SOI, trailing whitespace before EOI, and the whole input
must be consumed. -/
def toplevel : Nat → List Char → Option Program
  | 0, _ => none
  | f + 1, l =>
    match statements f (skipWS l) with
    | none => none
    | some p => if skipWS p.2 = [] then some p.1 else none

/-- Whole-document parse of a character list, with fuel far above the
recursion depth and iteration count reachable on the input. -/
def parseL (l : List Char) : Option Program := toplevel (l.length + 64) l

/-- parse: UTF-8 text in, Program (or failure) out (spec section 6). -/
def parse (s : String) : Option Program := parseL s.data

end Octave

namespace Octave

/-! ## Generic list helpers for greedy character classes -/

/-- The head of the list, if any, fails the predicate. -/
def headNotP {α} (p : α → Bool) : List α → Prop
  | [] => True
  | c :: _ => p c = false

theorem takeWhile_append_all {α} {p : α → Bool} :
    ∀ (a b : List α), (∀ c ∈ a, p c = true) → headNotP p b → (a ++ b).takeWhile p = a := by
  intro a
  induction a with
  | nil =>
    intro b _ hb
    cases b with
    | nil => rfl
    | cons c t =>
      have hb' : p c = false := hb
      simp [List.takeWhile_cons, hb']
  | cons c a ih =>
    intro b ha hb
    have hc : p c = true := ha c (by simp)
    simp [List.takeWhile_cons, hc, ih b (fun d hd => ha d (by simp [hd])) hb]

theorem dropWhile_append_all {α} {p : α → Bool} :
    ∀ (a b : List α), (∀ c ∈ a, p c = true) → headNotP p b → (a ++ b).dropWhile p = b := by
  intro a
  induction a with
  | nil =>
    intro b _ hb
    cases b with
    | nil => rfl
    | cons c t =>
      cases hc : p c with
      | false => simp [List.dropWhile_cons, hc]
      | true => simp [headNotP, hc] at hb
  | cons c a ih =>
    intro b ha hb
    have hc : p c = true := ha c (by simp)
    simp [List.dropWhile_cons, hc, ih b (fun d hd => ha d (by simp [hd])) hb]

theorem takeWhile_all {α} {p : α → Bool} (a : List α) (h : ∀ c ∈ a, p c = true) :
    a.takeWhile p = a := by
  simpa using takeWhile_append_all a [] h trivial

theorem dropWhile_all {α} {p : α → Bool} (a : List α) (h : ∀ c ∈ a, p c = true) :
    a.dropWhile p = [] := by
  simpa using dropWhile_append_all a [] h trivial

/-! ## Character class facts, phrased over Char.toNat -/

theorem char_ne_of_toNat_ne {c d : Char} (h : c.toNat ≠ d.toNat) : c ≠ d :=
  fun e => h (by rw [e])

theorem isAlpha_toNat {c : Char} (h : c.isAlpha = true) :
    65 ≤ c.toNat ∧ c.toNat ≤ 90 ∨ 97 ≤ c.toNat ∧ c.toNat ≤ 122 := by
  simp [Char.isAlpha, Char.isUpper, Char.isLower] at h
  exact h

theorem isDigit_toNat {c : Char} (h : c.isDigit = true) : 48 ≤ c.toNat ∧ c.toNat ≤ 57 := by
  simp [Char.isDigit] at h
  exact h

theorem isDigit_of_toNat {c : Char} (h1 : 48 ≤ c.toNat) (h2 : c.toNat ≤ 57) :
    c.isDigit = true := by
  simp [Char.isDigit]
  exact ⟨h1, h2⟩

theorem isDigit_eq_false {c : Char} (h : ¬(48 ≤ c.toNat ∧ c.toNat ≤ 57)) :
    c.isDigit = false := by
  cases hd : c.isDigit with
  | false => rfl
  | true => exact absurd (isDigit_toNat hd) h

theorem isAlpha_eq_false {c : Char}
    (h : ¬(65 ≤ c.toNat ∧ c.toNat ≤ 90 ∨ 97 ≤ c.toNat ∧ c.toNat ≤ 122)) :
    c.isAlpha = false := by
  cases ha : c.isAlpha with
  | false => rfl
  | true => exact absurd (isAlpha_toNat ha) h

theorem isWS_toNat {c : Char} (h : isWS c = true) :
    c.toNat = 32 ∨ c.toNat = 9 ∨ c.toNat = 13 ∨ c.toNat = 10 := by
  simp [isWS] at h
  rcases h with ((h | h) | h) | h <;> subst h <;> decide

theorem isWS_eq_false {c : Char}
    (h : ¬(c.toNat = 32 ∨ c.toNat = 9 ∨ c.toNat = 13 ∨ c.toNat = 10)) : isWS c = false := by
  cases hw : isWS c with
  | false => rfl
  | true => exact absurd (isWS_toNat hw) h

theorem identStart_toNat {c : Char} (h : identStart c = true) :
    65 ≤ c.toNat ∧ c.toNat ≤ 90 ∨ 97 ≤ c.toNat ∧ c.toNat ≤ 122 ∨ c.toNat = 95 := by
  simp [identStart] at h
  rcases h with h | h
  · rcases isAlpha_toNat h with h1 | h1
    · exact Or.inl h1
    · exact Or.inr (Or.inl h1)
  · subst h
    simp

theorem identCont_toNat {c : Char} (h : identCont c = true) :
    65 ≤ c.toNat ∧ c.toNat ≤ 90 ∨ 97 ≤ c.toNat ∧ c.toNat ≤ 122 ∨
      48 ≤ c.toNat ∧ c.toNat ≤ 57 ∨ c.toNat = 95 := by
  simp [identCont] at h
  rcases h with (h | h) | h
  · rcases isAlpha_toNat h with h1 | h1
    · exact Or.inl h1
    · exact Or.inr (Or.inl h1)
  · exact Or.inr (Or.inr (Or.inl (isDigit_toNat h)))
  · subst h
    simp

theorem identCont_eq_false {c : Char}
    (h : ¬(65 ≤ c.toNat ∧ c.toNat ≤ 90 ∨ 97 ≤ c.toNat ∧ c.toNat ≤ 122 ∨
      48 ≤ c.toNat ∧ c.toNat ≤ 57 ∨ c.toNat = 95)) : identCont c = false := by
  cases hi : identCont c with
  | false => rfl
  | true => exact absurd (identCont_toNat hi) h

theorem skipWS_nil : skipWS [] = [] := rfl

theorem skipWS_cons_false {c : Char} (h : isWS c = false) (r : List Char) :
    skipWS (c :: r) = c :: r := by
  simp [skipWS, List.dropWhile_cons, h]

end Octave

namespace Octave

/-! ## Failure of every rule on empty input -/

theorem literal_nil : literal [] = none := rfl

theorem matrix_nil : ∀ f, matrix f [] = none := by
  intro f
  cases f <;> rfl

theorem call_nil : ∀ f, call f [] = none := by
  intro f
  cases f <;> rfl

theorem value_nil : ∀ f, value f [] = none := by
  intro f
  cases f with
  | zero => rfl
  | succ f => simp [value, matrix_nil, literal_nil]

theorem atom_nil : ∀ f, atom f [] = none := by
  intro f
  cases f with
  | zero => rfl
  | succ f => simp [atom, call_nil, value_nil]

theorem binary_nil : ∀ f, binary f [] = none := by
  intro f
  cases f with
  | zero => rfl
  | succ f => simp [binary, atom_nil]

theorem range_operand_nil : ∀ f, range_operand f [] = none := by
  intro f
  cases f with
  | zero => rfl
  | succ f => simp [range_operand, binary_nil, value_nil]

theorem expr_nil : ∀ f, expr f [] = none := by
  intro f
  cases f with
  | zero => rfl
  | succ f => simp [expr, range_operand_nil]

theorem assignment_nil : ∀ f, assignment f [] = none := by
  intro f
  cases f <;> rfl

theorem statement_nil : ∀ f, statement f [] = none := by
  intro f
  cases f with
  | zero => rfl
  | succ f => simp [statement, assignment_nil, expr_nil]

theorem statement_semi_nil : ∀ f, statement_semi f [] = none := by
  intro f
  cases f with
  | zero => rfl
  | succ f => simp [statement_semi, statement_nil]

theorem statements_nil : ∀ f, statements (f + 1) [] = some ([], []) := by
  intro f
  simp [statements, statement_semi_nil, statement_nil]

/-! ## Failure of every expression rule at a character that can start no literal -/

/-- A character that starts no statement or expression: not an identifier
start, not a digit, and none of the punctuation that can open a value. -/
def notExprStartChar (c : Char) : Prop :=
  identStart c = false ∧ c.isDigit = false ∧ isWS c = false ∧
    c ≠ '-' ∧ c ≠ '"' ∧ c ≠ '\'' ∧ c ≠ '['

theorem identifier_stuck {c : Char} (h : notExprStartChar c) (r : List Char) :
    identifier (c :: r) = none := by
  simp [identifier, h.1]

theorem number_stuck {c : Char} (h : notExprStartChar c) (r : List Char) :
    number (c :: r) = none := by
  have hz : ¬(c = '0') := by
    intro e
    subst e
    exact absurd h.2.1 (by decide)
  have hnz : isNonzeroDigit c = false := by simp [isNonzeroDigit, h.2.1]
  simp [number, numberSign, h.2.2.2.1, numberIntPart, hz, hnz]

theorem string_stuck {c : Char} (h : notExprStartChar c) (r : List Char) :
    string (c :: r) = none := by
  simp [string, h.2.2.2.2.1, h.2.2.2.2.2.1]

theorem literal_stuck {c : Char} (h : notExprStartChar c) (r : List Char) :
    literal (c :: r) = none := by
  simp [literal, string_stuck h, number_stuck h, identifier_stuck h]

theorem matrix_stuck {c : Char} (h : notExprStartChar c) : ∀ f r, matrix f (c :: r) = none := by
  intro f r
  cases f with
  | zero => rfl
  | succ f => simp [matrix, h.2.2.2.2.2.2]

theorem call_stuck {c : Char} (h : notExprStartChar c) : ∀ f r, call f (c :: r) = none := by
  intro f r
  cases f with
  | zero => rfl
  | succ f => simp [call, identifier_stuck h]

theorem value_stuck {c : Char} (h : notExprStartChar c) : ∀ f r, value f (c :: r) = none := by
  intro f r
  cases f with
  | zero => rfl
  | succ f => simp [value, matrix_stuck h, literal_stuck h]

theorem atom_stuck {c : Char} (h : notExprStartChar c) : ∀ f r, atom f (c :: r) = none := by
  intro f r
  cases f with
  | zero => rfl
  | succ f => simp [atom, call_stuck h, value_stuck h]

theorem binary_stuck {c : Char} (h : notExprStartChar c) : ∀ f r, binary f (c :: r) = none := by
  intro f r
  cases f with
  | zero => rfl
  | succ f => simp [binary, atom_stuck h]

theorem range_operand_stuck {c : Char} (h : notExprStartChar c) :
    ∀ f r, range_operand f (c :: r) = none := by
  intro f r
  cases f with
  | zero => rfl
  | succ f => simp [range_operand, binary_stuck h, value_stuck h]

theorem expr_stuck {c : Char} (h : notExprStartChar c) : ∀ f r, expr f (c :: r) = none := by
  intro f r
  cases f with
  | zero => rfl
  | succ f => simp [expr, range_operand_stuck h]

theorem assignment_stuck {c : Char} (h : notExprStartChar c) :
    ∀ f r, assignment f (c :: r) = none := by
  intro f r
  cases f with
  | zero => rfl
  | succ f => simp [assignment, identifier_stuck h]

theorem statement_stuck {c : Char} (h : notExprStartChar c) :
    ∀ f r, statement f (c :: r) = none := by
  intro f r
  cases f with
  | zero => rfl
  | succ f => simp [statement, assignment_stuck h, expr_stuck h]

theorem statement_semi_stuck {c : Char} (h : notExprStartChar c) :
    ∀ f r, statement_semi f (c :: r) = none := by
  intro f r
  cases f with
  | zero => rfl
  | succ f => simp [statement_semi, statement_stuck h]

theorem statements_stuck {c : Char} (h : notExprStartChar c) :
    ∀ f r, statements (f + 1) (c :: r) = some ([], c :: r) := by
  intro f r
  simp [statements, statement_semi_stuck h, statement_stuck h]

end Octave

namespace Octave

/-! ## Claims C9 and C10: empty or whitespace-only input, comment characters -/

theorem toplevel_all_ws (f : Nat) (l : List Char) (h : ∀ c ∈ l, isWS c = true) :
    toplevel (f + 2) l = some [] := by
  have hs : skipWS l = [] := dropWhile_all l h
  simp [toplevel, hs, statements_nil, skipWS_nil]

/-- C9: parsing the empty input, or input made only of whitespace characters
(spaces, tabs, carriage returns, newlines), succeeds with an empty statement
sequence: the statement list of the toplevel rule is optional. -/
theorem c9_whitespace_only_parses_to_empty_program (l : List Char)
    (h : ∀ c ∈ l, isWS c = true) : parseL l = some [] := by
  have e : l.length + 64 = (l.length + 62) + 2 := rfl
  unfold parseL
  rw [e]
  exact toplevel_all_ws _ l h

/-- Witness for C9 at the empty input and at a three-character whitespace input. -/
theorem c9_witness :
    parseL [] = some [] ∧ parseL [' ', '\t', '\n'] = some [] :=
  ⟨c9_whitespace_only_parses_to_empty_program [] (by decide),
    c9_whitespace_only_parses_to_empty_program [' ', '\t', '\n'] (by decide)⟩

theorem toplevel_comment_char {c : Char} (h : notExprStartChar c) (f : Nat)
    (p t : List Char) (hp : ∀ x ∈ p, isWS x = true) :
    toplevel (f + 2) (p ++ c :: t) = none := by
  have hw : isWS c = false := h.2.2.1
  have hs : skipWS (p ++ c :: t) = c :: t := dropWhile_append_all p (c :: t) hp hw
  simp [toplevel, hs, statements_stuck h, skipWS_cons_false hw]

end Octave

namespace Octave

/-! ## Claim C8: a lone identifier parses to a bare expression statement -/

theorem identifier_complete (c : Char) (cs r : List Char) (h1 : identStart c = true)
    (h2 : ∀ x ∈ cs, identCont x = true) (h3 : headNotP identCont r) :
    identifier (c :: (cs ++ r)) = some (c :: cs, r) := by
  simp [identifier, h1, takeWhile_append_all cs r h2 h3, dropWhile_append_all cs r h2 h3]

theorem number_none_of_head {c : Char} (hd : c ≠ '-') (hz : c ≠ '0')
    (hnz : isNonzeroDigit c = false) (r : List Char) : number (c :: r) = none := by
  simp [number, numberSign, hd, numberIntPart, hz, hnz]

theorem string_none_of_head {c : Char} (h1 : c ≠ '"') (h2 : c ≠ '\'') (r : List Char) :
    string (c :: r) = none := by
  simp [string, h1, h2]

theorem matrix_none_of_head {c : Char} (h : c ≠ '[') : ∀ f r, matrix f (c :: r) = none := by
  intro f r
  cases f with
  | zero => rfl
  | succ f => simp [matrix, h]

/-- The character-class consequences of being an identifier start character. -/
theorem identStart_facts {c : Char} (h : identStart c = true) :
    isWS c = false ∧ c.isDigit = false ∧ c ≠ '-' ∧ c ≠ '"' ∧ c ≠ '\'' ∧ c ≠ '[' ∧ c ≠ '0' := by
  have hr := identStart_toNat h
  have v1 : ('-' : Char).toNat = 45 := rfl
  have v2 : ('"' : Char).toNat = 34 := rfl
  have v3 : ('\'' : Char).toNat = 39 := rfl
  have v4 : ('[' : Char).toNat = 91 := rfl
  have v5 : ('0' : Char).toNat = 48 := rfl
  refine ⟨isWS_eq_false (by omega), isDigit_eq_false (by omega),
    char_ne_of_toNat_ne (by omega), char_ne_of_toNat_ne (by omega),
    char_ne_of_toNat_ne (by omega), char_ne_of_toNat_ne (by omega),
    char_ne_of_toNat_ne (by omega)⟩

theorem ident_whole {c : Char} {cs : List Char} (h1 : identStart c = true)
    (h2 : ∀ x ∈ cs, identCont x = true) :
    identifier (c :: cs) = some (c :: cs, []) := by
  have := identifier_complete c cs [] h1 h2 trivial
  simpa using this

section IdentPath

variable {c : Char} {cs : List Char}
variable (h1 : identStart c = true) (h2 : ∀ x ∈ cs, identCont x = true)

include h1 h2

theorem ident_path_literal :
    literal (c :: cs) = some (.ident (c :: cs), []) := by
  obtain ⟨-, -, hm, hq1, hq2, -, hz⟩ := identStart_facts h1
  have hnz : isNonzeroDigit c = false := by
    simp [isNonzeroDigit, (identStart_facts h1).2.1]
  simp [literal, string_none_of_head hq1 hq2, number_none_of_head hm hz hnz,
    ident_whole h1 h2]

theorem ident_path_value :
    ∀ f, value (f + 1) (c :: cs) = some (.lit (.ident (c :: cs)), []) := by
  intro f
  simp [value, matrix_none_of_head (identStart_facts h1).2.2.2.2.2.1,
    ident_path_literal h1 h2]

theorem ident_path_call_none : ∀ f, call f (c :: cs) = none := by
  intro f
  cases f with
  | zero => rfl
  | succ f => simp [call, ident_whole h1 h2, skipWS_nil]

theorem ident_path_atom :
    ∀ f, atom (f + 2) (c :: cs) = some (.lit (.ident (c :: cs)), []) := by
  intro f
  simp [atom, ident_path_call_none h1 h2, ident_path_value h1 h2]

theorem ident_path_binary :
    ∀ f, binary (f + 3) (c :: cs) = some (.lit (.ident (c :: cs)), []) := by
  intro f
  simp [binary, ident_path_atom h1 h2, binaryTail, skipWS_nil, op]

theorem ident_path_range_operand :
    ∀ f, range_operand (f + 4) (c :: cs) = some (.lit (.ident (c :: cs)), []) := by
  intro f
  simp [range_operand, ident_path_binary h1 h2]

theorem ident_path_expr :
    ∀ f, expr (f + 5) (c :: cs) = some (.lit (.ident (c :: cs)), []) := by
  intro f
  simp [expr, ident_path_range_operand h1 h2, skipWS_nil]

theorem ident_path_assignment_none : ∀ f, assignment f (c :: cs) = none := by
  intro f
  cases f with
  | zero => rfl
  | succ f => simp [assignment, ident_whole h1 h2, skipWS_nil]

theorem ident_path_statement :
    ∀ f, statement (f + 6) (c :: cs) =
      some (.exprStatement (.lit (.ident (c :: cs))) false, []) := by
  intro f
  simp [statement, ident_path_assignment_none h1 h2, ident_path_expr h1 h2]

theorem ident_path_statement_semi_none : ∀ f, statement_semi (f + 7) (c :: cs) = none := by
  intro f
  simp [statement_semi, ident_path_statement h1 h2, skipWS_nil]

theorem ident_path_statements :
    ∀ f, statements (f + 8) (c :: cs) =
      some ([.exprStatement (.lit (.ident (c :: cs))) false], []) := by
  intro f
  have hsemi : statement_semi (f + 7) (c :: cs) = none :=
    ident_path_statement_semi_none h1 h2 f
  have hstmt : statement (f + 7) (c :: cs) =
      some (.exprStatement (.lit (.ident (c :: cs))) false, []) :=
    ident_path_statement h1 h2 (f + 1)
  have hnil : statements (f + 7) [] = some ([], []) := statements_nil (f + 6)
  rw [show f + 8 = (f + 7) + 1 from rfl, statements.eq_2, hsemi, hstmt]
  simp [skipWS_nil, hnil]

theorem ident_path_toplevel :
    ∀ f, toplevel (f + 9) (c :: cs) =
      some [.exprStatement (.lit (.ident (c :: cs))) false] := by
  intro f
  simp [toplevel, skipWS_cons_false (identStart_facts h1).1,
    ident_path_statements h1 h2, skipWS_nil]

end IdentPath

/-- C8: every input that is exactly one identifier, a character matching
A-Z, a-z or underscore followed by characters matching A-Z, a-z, 0-9 or
underscore, parses to a single unsuppressed expression statement holding
that identifier. -/
theorem c8_lone_identifier_parses_to_expression_statement (c : Char) (cs : List Char)
    (h1 : identStart c = true) (h2 : ∀ x ∈ cs, identCont x = true) :
    parseL (c :: cs) = some [.exprStatement (.lit (.ident (c :: cs))) false] := by
  have e : (c :: cs).length + 64 = ((c :: cs).length + 55) + 9 := rfl
  unfold parseL
  rw [e]
  exact ident_path_toplevel h1 h2 _

/-- Witness for C8 at the identifier x1. -/
theorem c8_witness :
    parseL ['x', '1'] = some [.exprStatement (.lit (.ident ['x', '1'])) false] :=
  c8_lone_identifier_parses_to_expression_statement 'x' ['1'] (by decide) (by decide)

end Octave

namespace Octave

/-! ## Claim C7: the number rule accepts exactly the spec language

The four part predicates below are written from the spec sentence: optional
leading minus; integer part 0 or a non-zero digit followed by digits;
optional fractional part, a dot followed by zero or more digits; optional
exponent e or E with an optional sign and one or more digits. -/

/-- Spec words: an optional leading minus. -/
def SignOk (s : List Char) : Prop := s = [] ∨ s = ['-']

/-- Spec words: the integer part is 0, or a non-zero digit followed by digits. -/
def IntOk (s : List Char) : Prop :=
  s = ['0'] ∨ ∃ c ds, s = c :: ds ∧ isNonzeroDigit c = true ∧ ∀ x ∈ ds, x.isDigit = true

/-- Spec words: an optional fractional part, a dot followed by zero or more
digits (a trailing bare dot is valid). -/
def FracOk (s : List Char) : Prop :=
  s = [] ∨ ∃ ds, s = '.' :: ds ∧ ∀ x ∈ ds, x.isDigit = true

/-- Spec words: an optional exponent, e or E, an optional sign, one or more
digits. -/
def ExpOk (s : List Char) : Prop :=
  s = [] ∨ ∃ e sg ds, s = e :: (sg ++ ds) ∧ (e = 'e' ∨ e = 'E') ∧
    (sg = [] ∨ sg = ['+'] ∨ sg = ['-']) ∧ ds ≠ [] ∧ ∀ x ∈ ds, x.isDigit = true

/-- Modelled from the spec: the shape of a Number literal as the spec
sentence describes it (claim C7), to be compared with the number rule. -/
def NumberSpec (s : List Char) : Prop :=
  ∃ sg ip fp ep, s = sg ++ ip ++ fp ++ ep ∧ SignOk sg ∧ IntOk ip ∧ FracOk fp ∧ ExpOk ep

/-- A rest whose head can extend no part of a number literal. -/
def numBoundary : List Char → Prop
  | [] => True
  | c :: _ => c.isDigit = false ∧ c ≠ '.' ∧ c ≠ 'e' ∧ c ≠ 'E'

/-- A rest whose head is not a digit. -/
def noDigitHead : List Char → Prop
  | [] => True
  | c :: _ => c.isDigit = false

/-- A rest whose head can extend no fractional part. -/
def fracBoundary : List Char → Prop
  | [] => True
  | c :: _ => c.isDigit = false ∧ c ≠ '.'

/-- A rest whose head can extend no exponent part. -/
def expBoundary : List Char → Prop
  | [] => True
  | c :: _ => c.isDigit = false ∧ c ≠ 'e' ∧ c ≠ 'E'

theorem noDigitHead_of_headNotP : ∀ {z : List Char}, noDigitHead z → headNotP Char.isDigit z
  | [], _ => trivial
  | _ :: _, h => h

theorem isNonzeroDigit_ne_zero {c : Char} (h : isNonzeroDigit c = true) : c ≠ '0' := by
  simp [isNonzeroDigit] at h
  exact h.2

theorem isNonzeroDigit_isDigit {c : Char} (h : isNonzeroDigit c = true) : c.isDigit = true := by
  simp [isNonzeroDigit] at h
  exact h.1

theorem numberIntPart_append {ip z : List Char} (h : IntOk ip) (hz : noDigitHead z) :
    numberIntPart (ip ++ z) = some (ip, z) := by
  rcases h with h | ⟨c, ds, e, hc, hds⟩
  · subst h
    simp [numberIntPart]
  · subst e
    have hz' := noDigitHead_of_headNotP hz
    simp [numberIntPart, isNonzeroDigit_ne_zero hc, hc,
      takeWhile_append_all ds z hds hz', dropWhile_append_all ds z hds hz']

theorem numberFrac_append {fp z : List Char} (h : FracOk fp) (hz : fracBoundary z) :
    numberFrac (fp ++ z) = (fp, z) := by
  rcases h with h | ⟨ds, e, hds⟩
  · subst h
    cases z with
    | nil => rfl
    | cons c r => simp [numberFrac, hz.2]
  · subst e
    have hz' : headNotP Char.isDigit z := by
      cases z with
      | nil => trivial
      | cons c r => exact hz.1
    simp [numberFrac, takeWhile_append_all ds z hds hz', dropWhile_append_all ds z hds hz']

theorem numberExp_append {ep z : List Char} (h : ExpOk ep) (hz : expBoundary z) :
    numberExp (ep ++ z) = (ep, z) := by
  rcases h with h | ⟨e, sg, ds, he, hee, hsg, hne, hds⟩
  · subst h
    cases z with
    | nil => rfl
    | cons c r =>
      have h1 : ¬(c = 'e' ∨ c = 'E') := by
        rintro (rfl | rfl)
        · exact hz.2.1 rfl
        · exact hz.2.2 rfl
      simp [numberExp, h1]
  · subst he
    have hee' : e = 'e' ∨ e = 'E' := hee
    have hz' : headNotP Char.isDigit z := by
      cases z with
      | nil => trivial
      | cons c r => exact hz.1
    rcases hsg with rfl | rfl | rfl
    · obtain ⟨d, ds', rfl⟩ : ∃ d ds', ds = d :: ds' := by
        cases ds with
        | nil => exact absurd rfl hne
        | cons d ds' => exact ⟨d, ds', rfl⟩
      have hd : d.isDigit = true := hds d (by simp)
      have hds' : ∀ x ∈ ds', x.isDigit = true := fun x hx => hds x (by simp [hx])
      have hd1 : ¬(d = '+' ∨ d = '-') := by
        have hr := isDigit_toNat hd
        have v1 : ('+' : Char).toNat = 43 := rfl
        have v2 : ('-' : Char).toNat = 45 := rfl
        rintro (rfl | rfl) <;> omega
      simp [numberExp, hee', hd1, List.takeWhile_cons, List.dropWhile_cons, hd,
        takeWhile_append_all ds' z hds' hz', dropWhile_append_all ds' z hds' hz']
    · simp [numberExp, hee', hne,
        takeWhile_append_all ds z hds hz', dropWhile_append_all ds z hds hz']
    · simp [numberExp, hee', hne,
        takeWhile_append_all ds z hds hz', dropWhile_append_all ds z hds hz']

end Octave

namespace Octave

theorem numBoundary_expBoundary : ∀ {r : List Char}, numBoundary r → expBoundary r
  | [], _ => trivial
  | _ :: _, h => ⟨h.1, h.2.2.1, h.2.2.2⟩

theorem ExpOk_fracBoundary {ep r : List Char} (h : ExpOk ep) (hb : numBoundary r) :
    fracBoundary (ep ++ r) := by
  rcases h with rfl | ⟨e, sg, ds, rfl, hee, -, -, -⟩
  · cases r with
    | nil => trivial
    | cons c t => exact ⟨hb.1, hb.2.1⟩
  · rcases hee with rfl | rfl <;> exact ⟨by decide, by decide⟩

theorem FracOk_noDigitHead {fp ep r : List Char} (hf : FracOk fp) (he : ExpOk ep)
    (hb : numBoundary r) : noDigitHead (fp ++ (ep ++ r)) := by
  rcases hf with rfl | ⟨ds, rfl, -⟩
  · rcases he with rfl | ⟨e, sg, ds, rfl, hee, -, -, -⟩
    · cases r with
      | nil => trivial
      | cons c t => exact hb.1
    · rcases hee with rfl | rfl
      · exact (by decide : Char.isDigit 'e' = false)
      · exact (by decide : Char.isDigit 'E' = false)
  · exact (by decide : Char.isDigit '.' = false)

theorem number_append {n r : List Char} (h : NumberSpec n) (hb : numBoundary r) :
    number (n ++ r) = some (n, r) := by
  obtain ⟨sg, ip, fp, ep, rfl, hsg, hip, hfp, hep⟩ := h
  have hint : numberIntPart (ip ++ (fp ++ (ep ++ r))) = some (ip, fp ++ (ep ++ r)) :=
    numberIntPart_append hip (FracOk_noDigitHead hfp hep hb)
  have hfr : numberFrac (fp ++ (ep ++ r)) = (fp, ep ++ r) :=
    numberFrac_append hfp (ExpOk_fracBoundary hep hb)
  have hex : numberExp (ep ++ r) = (ep, r) :=
    numberExp_append hep (numBoundary_expBoundary hb)
  rcases hsg with rfl | rfl
  · have hs : numberSign (ip ++ (fp ++ (ep ++ r))) = ([], ip ++ (fp ++ (ep ++ r))) := by
      rcases hip with rfl | ⟨c, ds, rfl, hc, -⟩
      · simp [numberSign, show ('0' : Char) ≠ '-' by decide]
      · have hcm : c ≠ '-' := by
          have := isDigit_toNat (isNonzeroDigit_isDigit hc)
          have v : ('-' : Char).toNat = 45 := rfl
          exact char_ne_of_toNat_ne (by omega)
        simp [numberSign, hcm]
    simp only [List.nil_append, List.append_assoc]
    simp [number, hs, hint, hfr, hex]
  · have hs : numberSign ('-' :: (ip ++ (fp ++ (ep ++ r)))) =
        (['-'], ip ++ (fp ++ (ep ++ r))) := by simp [numberSign]
    simp only [List.cons_append, List.nil_append, List.append_assoc]
    simp [number, hs, hint, hfr, hex]

theorem numberSign_SignOk (l : List Char) : SignOk (numberSign l).1 := by
  cases l with
  | nil => exact Or.inl rfl
  | cons c r =>
    by_cases hc : c = '-'
    · right
      simp [numberSign, hc]
    · left
      simp [numberSign, hc]

theorem numberIntPart_IntOk {l : List Char} {p : List Char × List Char}
    (h : numberIntPart l = some p) : IntOk p.1 := by
  cases l with
  | nil => simp [numberIntPart] at h
  | cons c r =>
    by_cases hc : c = '0'
    · subst hc
      simp [numberIntPart] at h
      rw [← h]
      exact Or.inl rfl
    · by_cases hnz : isNonzeroDigit c = true
      · simp [numberIntPart, hc, hnz] at h
        right
        exact ⟨c, r.takeWhile Char.isDigit, by rw [← h],
          hnz, fun x hx => List.mem_takeWhile_imp hx⟩
      · simp [numberIntPart, hc, hnz] at h

theorem numberFrac_FracOk (l : List Char) : FracOk (numberFrac l).1 := by
  cases l with
  | nil => exact Or.inl rfl
  | cons c r =>
    by_cases hc : c = '.'
    · subst hc
      right
      exact ⟨r.takeWhile Char.isDigit, by simp [numberFrac],
        fun x hx => List.mem_takeWhile_imp hx⟩
    · left
      simp [numberFrac, hc]

theorem numberExp_ExpOk (l : List Char) : ExpOk (numberExp l).1 := by
  cases l with
  | nil => exact Or.inl rfl
  | cons c r =>
    by_cases he : c = 'e' ∨ c = 'E'
    · cases r with
      | nil => simp [numberExp, he, ExpOk]
      | cons c2 r2 =>
        by_cases hsgn : c2 = '+' ∨ c2 = '-'
        · by_cases hds : r2.takeWhile Char.isDigit = []
          · simp [numberExp, he, hsgn, hds, ExpOk]
          · right
            refine ⟨c, [c2], r2.takeWhile Char.isDigit, ?_, he,
              by rcases hsgn with rfl | rfl <;> simp, hds,
              fun x hx => List.mem_takeWhile_imp hx⟩
            simp [numberExp, he, hsgn, hds]
        · by_cases hds : (c2 :: r2).takeWhile Char.isDigit = []
          · simp [numberExp, he, hsgn, hds, ExpOk]
          · right
            refine ⟨c, [], (c2 :: r2).takeWhile Char.isDigit, ?_, he, Or.inl rfl, hds,
              fun x hx => List.mem_takeWhile_imp hx⟩
            simp [numberExp, he, hsgn, hds]
    · left
      simp [numberExp, he]

theorem number_NumberSpec {n : List Char} (h : number n = some (n, [])) : NumberSpec n := by
  simp only [number] at h
  cases hip : numberIntPart (numberSign n).2 with
  | none => rw [hip] at h; simp at h
  | some ip =>
    rw [hip] at h
    simp only [Option.some.injEq, Prod.mk.injEq] at h
    exact ⟨(numberSign n).1, ip.1, (numberFrac ip.2).1, (numberExp (numberFrac ip.2).2).1,
      h.1.symm, numberSign_SignOk n, numberIntPart_IntOk hip,
      numberFrac_FracOk _, numberExp_ExpOk _⟩

/-- C7: the number rule accepts exactly the spec shape: an optional leading
minus, an integer part that is 0 or a non-zero digit followed by digits, an
optional fractional part (a dot followed by zero or more digits, so a
trailing bare dot is valid), and an optional exponent (e or E, an optional
sign, one or more digits); no other numeric form is a number literal. -/
theorem c7_number_rule_exactly_spec_shape (s : List Char) :
    number s = some (s, []) ↔ NumberSpec s := by
  constructor
  · exact number_NumberSpec
  · intro h
    have := number_append h (show numBoundary [] from trivial)
    simpa using this

end Octave

namespace Octave

/-! ## Claim C1: three numbers joined by plus and times parse to a flat chain -/

theorem NumberSpec_head {n : List Char} (h : NumberSpec n) :
    ∃ c t, n = c :: t ∧ (c = '-' ∨ c.isDigit = true) := by
  obtain ⟨sg, ip, fp, ep, rfl, hsg, hip, -, -⟩ := h
  rcases hsg with rfl | rfl
  · rcases hip with rfl | ⟨c, ds, rfl, hc, -⟩
    · exact ⟨'0', fp ++ ep, by simp, Or.inr (by decide)⟩
    · exact ⟨c, ds ++ (fp ++ ep), by simp, Or.inr (isNonzeroDigit_isDigit hc)⟩
  · exact ⟨'-', ip ++ (fp ++ ep), by simp, Or.inl rfl⟩

theorem numHead_facts {c : Char} (h : c = '-' ∨ c.isDigit = true) :
    identStart c = false ∧ isWS c = false ∧ c ≠ '"' ∧ c ≠ '\'' ∧ c ≠ '[' := by
  have hr : c.toNat = 45 ∨ (48 ≤ c.toNat ∧ c.toNat ≤ 57) := by
    rcases h with rfl | h
    · exact Or.inl rfl
    · exact Or.inr (isDigit_toNat h)
  have hA : c.isAlpha = false := isAlpha_eq_false (by omega)
  have hU : c ≠ '_' := char_ne_of_toNat_ne (by have v : ('_' : Char).toNat = 95 := rfl; omega)
  refine ⟨by simp [identStart, hA, hU], isWS_eq_false (by omega),
    char_ne_of_toNat_ne (by have v : ('"' : Char).toNat = 34 := rfl; omega),
    char_ne_of_toNat_ne (by have v : ('\'' : Char).toNat = 39 := rfl; omega),
    char_ne_of_toNat_ne (by have v : ('[' : Char).toNat = 91 := rfl; omega)⟩

theorem atom_num {n r : List Char} (h : NumberSpec n) (hb : numBoundary r) :
    ∀ f, atom (f + 2) (n ++ r) = some (.lit (.num n), r) := by
  obtain ⟨c, t, e, hc⟩ := NumberSpec_head h
  obtain ⟨hid, hws, hq1, hq2, hbr⟩ := numHead_facts hc
  intro f
  have hnum : number (n ++ r) = some (n, r) := number_append h hb
  have hcall : ∀ g, call g (n ++ r) = none := by
    intro g
    cases g with
    | zero => rfl
    | succ g =>
      subst e
      simp [call, identifier, hid]
  have hlit : literal (n ++ r) = some (.num n, r) := by
    subst e
    have hstr : string (c :: (t ++ r)) = none := string_none_of_head hq1 hq2 _
    have hnum' : number (c :: (t ++ r)) = some (c :: t, r) := by simpa using hnum
    simp [literal, hstr, hnum']
  have hval : value (f + 1) (n ++ r) = some (.lit (.num n), r) := by
    have hm : matrix f (n ++ r) = none := by
      subst e
      simpa using matrix_none_of_head hbr f (t ++ r)
    simp [value, hm, hlit]
  simp [atom, hcall, hval]

theorem binaryTail_stop (f : Nat) (acc : List (Op × Expr)) :
    binaryTail (f + 1) acc [] = some (acc, []) := by
  simp [binaryTail, skipWS_nil, op]

section ChainPath

variable {n1 n2 n3 : List Char}
variable (h1 : NumberSpec n1) (h2 : NumberSpec n2) (h3 : NumberSpec n3)

include h1 h2 h3

theorem chain_binary :
    ∀ f, binary (f + 6) (n1 ++ '+' :: (n2 ++ '*' :: n3)) =
      some (.binaryChain (.lit (.num n1))
        [(.add, .lit (.num n2)), (.mul, .lit (.num n3))], []) := by
  intro f
  obtain ⟨c2, t2, e2, hc2⟩ := NumberSpec_head h2
  obtain ⟨c3, t3, e3, hc3⟩ := NumberSpec_head h3
  have hws2 : isWS c2 = false := (numHead_facts hc2).2.1
  have hws3 : isWS c3 = false := (numHead_facts hc3).2.1
  have ha1 : atom (f + 5) (n1 ++ '+' :: (n2 ++ '*' :: n3)) =
      some (.lit (.num n1), '+' :: (n2 ++ '*' :: n3)) :=
    atom_num h1 (show numBoundary ('+' :: (n2 ++ '*' :: n3)) from
      ⟨by decide, by decide, by decide, by decide⟩) (f + 3)
  have ha2 : atom (f + 4) (n2 ++ '*' :: n3) = some (.lit (.num n2), '*' :: n3) :=
    atom_num h2 (show numBoundary ('*' :: n3) from
      ⟨by decide, by decide, by decide, by decide⟩) (f + 2)
  have ha3 : atom (f + 3) n3 = some (.lit (.num n3), []) := by
    simpa using atom_num h3 (show numBoundary [] from trivial) (f + 1)
  have hskip2 : skipWS (n2 ++ '*' :: n3) = n2 ++ '*' :: n3 := by
    rw [e2]
    simpa using skipWS_cons_false hws2 (t2 ++ '*' :: n3)
  have hskip3 : skipWS n3 = n3 := by
    rw [e3]
    exact skipWS_cons_false hws3 t3
  simp [binary, binaryTail, ha1, ha2, ha3, op, skipWS_nil, hskip2, hskip3,
    skipWS_cons_false (show isWS '+' = false from by decide),
    skipWS_cons_false (show isWS '*' = false from by decide)]

theorem chain_expr :
    ∀ f, expr (f + 8) (n1 ++ '+' :: (n2 ++ '*' :: n3)) =
      some (.binaryChain (.lit (.num n1))
        [(.add, .lit (.num n2)), (.mul, .lit (.num n3))], []) := by
  intro f
  have hb6 : binary (f + 6) (n1 ++ '+' :: (n2 ++ '*' :: n3)) =
      some (.binaryChain (.lit (.num n1))
        [(.add, .lit (.num n2)), (.mul, .lit (.num n3))], []) :=
    chain_binary h1 h2 h3 f
  have hro : range_operand (f + 7) (n1 ++ '+' :: (n2 ++ '*' :: n3)) =
      some (.binaryChain (.lit (.num n1))
        [(.add, .lit (.num n2)), (.mul, .lit (.num n3))], []) := by
    simp [range_operand, hb6]
  simp [expr, hro, skipWS_nil]

end ChainPath

end Octave

namespace Octave

section ChainProgram

variable {n1 n2 n3 : List Char}
variable (h1 : NumberSpec n1) (h2 : NumberSpec n2) (h3 : NumberSpec n3)

include h1 h2 h3

theorem chain_assignment :
    ∀ f, assignment (f + 9) ('a' :: ' ' :: '=' :: ' ' :: (n1 ++ '+' :: (n2 ++ '*' :: n3))) =
      some ((['a'], .binaryChain (.lit (.num n1))
        [(.add, .lit (.num n2)), (.mul, .lit (.num n3))]), []) := by
  intro f
  obtain ⟨c1, t1, e1, hc1⟩ := NumberSpec_head h1
  have hws1 : isWS c1 = false := (numHead_facts hc1).2.1
  have hid : identifier ('a' :: ' ' :: '=' :: ' ' :: (n1 ++ '+' :: (n2 ++ '*' :: n3))) =
      some (['a'], ' ' :: '=' :: ' ' :: (n1 ++ '+' :: (n2 ++ '*' :: n3))) := by
    simp [identifier, show identStart 'a' = true from by decide, List.takeWhile_cons,
      List.dropWhile_cons, show identCont ' ' = false from by decide]
  have hsk1 : skipWS (' ' :: '=' :: ' ' :: (n1 ++ '+' :: (n2 ++ '*' :: n3))) =
      '=' :: ' ' :: (n1 ++ '+' :: (n2 ++ '*' :: n3)) := by
    simp [skipWS, List.dropWhile_cons, show isWS ' ' = true from by decide,
      show isWS '=' = false from by decide]
  have hsk2 : skipWS (' ' :: (n1 ++ '+' :: (n2 ++ '*' :: n3))) =
      n1 ++ '+' :: (n2 ++ '*' :: n3) := by
    rw [e1]
    simp [skipWS, List.dropWhile_cons, show isWS ' ' = true from by decide, hws1]
  have he : expr (f + 8) (n1 ++ '+' :: (n2 ++ '*' :: n3)) =
      some (.binaryChain (.lit (.num n1))
        [(.add, .lit (.num n2)), (.mul, .lit (.num n3))], []) :=
    chain_expr h1 h2 h3 f
  simp [assignment, hid, hsk1, hsk2, he]

theorem chain_statement :
    ∀ f, statement (f + 10) ('a' :: ' ' :: '=' :: ' ' :: (n1 ++ '+' :: (n2 ++ '*' :: n3))) =
      some (.assignment ['a'] (.binaryChain (.lit (.num n1))
        [(.add, .lit (.num n2)), (.mul, .lit (.num n3))]), []) := by
  intro f
  have ha : assignment (f + 9) ('a' :: ' ' :: '=' :: ' ' :: (n1 ++ '+' :: (n2 ++ '*' :: n3))) =
      some ((['a'], .binaryChain (.lit (.num n1))
        [(.add, .lit (.num n2)), (.mul, .lit (.num n3))]), []) :=
    chain_assignment h1 h2 h3 f
  simp [statement, ha]

theorem chain_statement_semi :
    ∀ f, statement_semi (f + 11)
      ('a' :: ' ' :: '=' :: ' ' :: (n1 ++ '+' :: (n2 ++ '*' :: n3))) = none := by
  intro f
  have hs : statement (f + 10)
      ('a' :: ' ' :: '=' :: ' ' :: (n1 ++ '+' :: (n2 ++ '*' :: n3))) =
      some (.assignment ['a'] (.binaryChain (.lit (.num n1))
        [(.add, .lit (.num n2)), (.mul, .lit (.num n3))]), []) :=
    chain_statement h1 h2 h3 f
  simp [statement_semi, hs, skipWS_nil]

theorem chain_statements :
    ∀ f, statements (f + 12) ('a' :: ' ' :: '=' :: ' ' :: (n1 ++ '+' :: (n2 ++ '*' :: n3))) =
      some ([.assignment ['a'] (.binaryChain (.lit (.num n1))
        [(.add, .lit (.num n2)), (.mul, .lit (.num n3))])], []) := by
  intro f
  have hsemi : statement_semi (f + 11)
      ('a' :: ' ' :: '=' :: ' ' :: (n1 ++ '+' :: (n2 ++ '*' :: n3))) = none :=
    chain_statement_semi h1 h2 h3 f
  have hstmt : statement (f + 11)
      ('a' :: ' ' :: '=' :: ' ' :: (n1 ++ '+' :: (n2 ++ '*' :: n3))) =
      some (.assignment ['a'] (.binaryChain (.lit (.num n1))
        [(.add, .lit (.num n2)), (.mul, .lit (.num n3))]), []) :=
    chain_statement h1 h2 h3 (f + 1)
  have hnil : statements (f + 11) [] = some ([], []) := statements_nil (f + 10)
  rw [show f + 12 = (f + 11) + 1 from rfl, statements.eq_2, hsemi, hstmt]
  simp [skipWS_nil, hnil]

theorem chain_toplevel :
    ∀ f, toplevel (f + 13) ('a' :: ' ' :: '=' :: ' ' :: (n1 ++ '+' :: (n2 ++ '*' :: n3))) =
      some [.assignment ['a'] (.binaryChain (.lit (.num n1))
        [(.add, .lit (.num n2)), (.mul, .lit (.num n3))])] := by
  intro f
  have hst : statements (f + 12)
      ('a' :: ' ' :: '=' :: ' ' :: (n1 ++ '+' :: (n2 ++ '*' :: n3))) =
      some ([.assignment ['a'] (.binaryChain (.lit (.num n1))
        [(.add, .lit (.num n2)), (.mul, .lit (.num n3))])], []) :=
    chain_statements h1 h2 h3 f
  simp [toplevel, skipWS_cons_false (show isWS 'a' = false from by decide), hst, skipWS_nil]

end ChainProgram

/-- C1: for all inputs of the form identifier a, equals sign, then three
number literals joined by a plus and then a times, the parse succeeds and
the value is the flat left-to-right chain BinaryChain over add then mul: no
precedence or associativity regrouping ever produces 1 + (2 times 3). -/
theorem c1_flat_binary_chain_no_precedence (n1 n2 n3 : List Char)
    (h1 : number n1 = some (n1, [])) (h2 : number n2 = some (n2, []))
    (h3 : number n3 = some (n3, [])) :
    parseL ('a' :: ' ' :: '=' :: ' ' :: (n1 ++ '+' :: (n2 ++ '*' :: n3))) =
      some [.assignment ['a'] (.binaryChain (.lit (.num n1))
        [(.add, .lit (.num n2)), (.mul, .lit (.num n3))])] := by
  have s1 := number_NumberSpec h1
  have s2 := number_NumberSpec h2
  have s3 := number_NumberSpec h3
  unfold parseL
  rw [show ('a' :: ' ' :: '=' :: ' ' :: (n1 ++ '+' :: (n2 ++ '*' :: n3))).length + 64 =
    (('a' :: ' ' :: '=' :: ' ' :: (n1 ++ '+' :: (n2 ++ '*' :: n3))).length + 51) + 13 from rfl]
  exact chain_toplevel s1 s2 s3 _

/-- Witness for C1 at the spec example a = 1+2*3. -/
theorem c1_witness :
    parseL ['a', ' ', '=', ' ', '1', '+', '2', '*', '3'] =
      some [.assignment ['a'] (.binaryChain (.lit (.num ['1']))
        [(.add, .lit (.num ['2'])), (.mul, .lit (.num ['3']))])] :=
  c1_flat_binary_chain_no_precedence ['1'] ['2'] ['3'] rfl rfl rfl

end Octave

namespace Octave

/-! ## String machinery: where the character repetitions can stop -/

theorem pair_eta_eq {α β : Type} (p : α × β) {y : β} (h : p.2 = y) : p = (p.1, y) := by
  rw [← h]

theorem charsSimple_ends (t : List Char) :
    ∀ d u, charsSimple t = (d, u) → u = [] ∨ ∃ w, u = '\'' :: '\\' :: w := by
  induction t using charsSimple.induct with
  | case1 =>
    intro d u h
    injection h with h1 h2
    exact Or.inl h2.symm
  | case2 r =>
    intro d u h
    injection h with h1 h2
    exact Or.inr ⟨r, h2.symm⟩
  | case3 c r hne ih =>
    intro d u h
    rw [charsSimple.eq_3 c r hne] at h
    injection h with h1 h2
    subst h2
    exact ih _ _ rfl

theorem charsDouble_append (t : List Char) :
    ∀ d u, charsDouble t = (d, '"' :: u) →
      ∀ z, charsDouble (t ++ z) = (d, '"' :: (u ++ z)) := by
  induction t using charsDouble.induct with
  | case1 =>
    intro d u h
    injection h with h1 h2
    simp at h2
  | case2 r =>
    intro d u h z
    injection h with h1 h2
    injection h2 with h3 h4
    subst h1
    subst h4
    simpa using charsDouble.eq_2 (r ++ z)
  | case3 h1 h2 h3 h4 r hhex ih =>
    intro d u h z
    rw [charsDouble.eq_3 h1 h2 h3 h4 r, if_pos hhex] at h
    injection h with hd hu
    have hrz := ih (charsDouble r).1 u (pair_eta_eq _ hu) z
    show charsDouble ('\\' :: 'u' :: h1 :: h2 :: h3 :: h4 :: (r ++ z)) = _
    rw [charsDouble.eq_3 h1 h2 h3 h4 (r ++ z), if_pos hhex, hrz]
    simp [← hd]
  | case4 h1 h2 h3 h4 r hhex =>
    intro d u h z
    rw [charsDouble.eq_3 h1 h2 h3 h4 r, if_neg hhex] at h
    injection h with hd hu
    simp at hu
  | case5 c r hnotu d' hesc ih =>
    intro d u h z
    have hcu : c ≠ 'u' := by
      intro e
      rw [e] at hesc
      simp [escMap] at hesc
    rw [charsDouble.eq_4 c r hnotu] at h
    rw [hesc] at h
    simp only [] at h
    injection h with hd hu
    have hrz := ih (charsDouble r).1 u (pair_eta_eq _ hu) z
    show charsDouble ('\\' :: c :: (r ++ z)) = _
    rw [charsDouble.eq_4 c (r ++ z) (fun _ _ _ _ _ hc _ => absurd hc hcu), hesc]
    simp only []
    rw [hrz]
    simp [← hd]
  | case6 c r hnotu hescn =>
    intro d u h z
    rw [charsDouble.eq_4 c r hnotu, hescn] at h
    simp only [] at h
    injection h with hd hu
    simp at hu
  | case7 =>
    intro d u h z
    injection h with hd hu
    simp at hu
  | case8 c r hne1 hne2 hne3 hne4 ih =>
    intro d u h z
    have hcb : c ≠ '\\' := by
      intro e
      cases r with
      | nil => exact hne4 e rfl
      | cons a b => exact hne3 a b e rfl
    rw [charsDouble.eq_6 c r hne1 hne2 hne3 hne4] at h
    injection h with hd hu
    have hrz := ih (charsDouble r).1 u (pair_eta_eq _ hu) z
    show charsDouble (c :: (r ++ z)) = _
    rw [charsDouble.eq_6 c (r ++ z) hne1 (fun _ _ _ _ _ hc hr => absurd hc hcb)
      (fun _ _ hc _ => absurd hc hcb) (fun hc _ => absurd hc hcb), hrz]
    simp [← hd]

end Octave

namespace Octave

/-! ## Full-match string literals and appending input after a literal -/

theorem string_full_is_double {a v : List Char} (h : string a = some (v, [])) :
    ∃ t, a = '"' :: t ∧ charsDouble t = (v, ['"']) := by
  cases a with
  | nil => simp [string] at h
  | cons c r =>
    by_cases hq : c = '"'
    · subst hq
      refine ⟨r, rfl, ?_⟩
      rcases hcd : charsDouble r with ⟨d, u⟩
      simp only [string, hcd, if_pos rfl] at h
      cases u with
      | nil => simp at h
      | cons c2 r2 =>
        by_cases hc2 : c2 = '"'
        · subst hc2
          simp at h
          obtain ⟨h1, h2⟩ := h
          rw [h1, h2]
        · simp [hc2] at h
    · by_cases hs : c = '\''
      · subst hs
        exfalso
        rcases hcs : charsSimple r with ⟨d, u⟩
        simp [string, hcs, show ¬('\'' : Char) = '"' from by decide] at h
        rcases charsSimple_ends r d u hcs with rfl | ⟨w, rfl⟩
        · simp at h
        · simp at h
      · simp [string, hq, hs] at h

theorem string_append {a v : List Char} (h : string a = some (v, [])) (z : List Char) :
    string (a ++ z) = some (v, z) := by
  obtain ⟨t, rfl, hcd⟩ := string_full_is_double h
  have hz := charsDouble_append t v [] hcd z
  simp only [List.nil_append] at hz
  simp [string, hz]

/-! ## Reconstruction: a rule's consumed text and rest concatenate to its input -/

theorem numberSign_recon (l : List Char) : l = (numberSign l).1 ++ (numberSign l).2 := by
  cases l with
  | nil => rfl
  | cons c r =>
    by_cases hc : c = '-'
    · subst hc
      simp [numberSign]
    · simp [numberSign, hc]

theorem numberIntPart_recon {l : List Char} {p : List Char × List Char}
    (h : numberIntPart l = some p) : l = p.1 ++ p.2 := by
  cases l with
  | nil => simp [numberIntPart] at h
  | cons c r =>
    by_cases hc : c = '0'
    · subst hc
      simp [numberIntPart] at h
      rw [← h]
      simp
    · by_cases hnz : isNonzeroDigit c = true
      · simp [numberIntPart, hc, hnz] at h
        rw [← h]
        simp [List.takeWhile_append_dropWhile]
      · simp [numberIntPart, hc, hnz] at h

theorem numberFrac_recon (l : List Char) : l = (numberFrac l).1 ++ (numberFrac l).2 := by
  cases l with
  | nil => rfl
  | cons c r =>
    by_cases hc : c = '.'
    · subst hc
      simp [numberFrac, List.takeWhile_append_dropWhile]
    · simp [numberFrac, hc]

theorem numberExp_recon (l : List Char) : l = (numberExp l).1 ++ (numberExp l).2 := by
  cases l with
  | nil => rfl
  | cons c r =>
    by_cases he : c = 'e' ∨ c = 'E'
    · cases r with
      | nil => simp [numberExp, he]
      | cons c2 r2 =>
        by_cases hsgn : c2 = '+' ∨ c2 = '-'
        · by_cases hds : r2.takeWhile Char.isDigit = []
          · simp [numberExp, he, hsgn, hds]
          · simp [numberExp, he, hsgn, hds, List.takeWhile_append_dropWhile]
        · by_cases hds : (c2 :: r2).takeWhile Char.isDigit = []
          · simp [numberExp, he, hsgn, hds]
          · simp [numberExp, he, hsgn, hds, List.takeWhile_append_dropWhile]
    · simp [numberExp, he]

theorem number_recon {l : List Char} {p : List Char × List Char}
    (h : number l = some p) : l = p.1 ++ p.2 := by
  simp only [number] at h
  cases hip : numberIntPart (numberSign l).2 with
  | none => rw [hip] at h; simp at h
  | some ip =>
    rw [hip] at h
    simp only [Option.some.injEq] at h
    have e1 := numberSign_recon l
    have e2 := numberIntPart_recon hip
    have e3 := numberFrac_recon ip.2
    have e4 := numberExp_recon (numberFrac ip.2).2
    have key : (numberSign l).1 ++ (ip.1 ++ ((numberFrac ip.2).1 ++
        ((numberExp (numberFrac ip.2).2).1 ++ (numberExp (numberFrac ip.2).2).2))) = l := by
      rw [← e4, ← e3, ← e2, ← e1]
    rw [← h]
    simpa using key.symm

theorem number_full {a v : List Char} (h : number a = some (v, [])) : v = a := by
  have := number_recon h
  simpa using this.symm

theorem number_some_head {l : List Char} {p : List Char × List Char}
    (h : number l = some p) : ∃ c t, l = c :: t ∧ (c = '-' ∨ c.isDigit = true) := by
  cases l with
  | nil => simp [number, numberSign, numberIntPart] at h
  | cons c r =>
    refine ⟨c, r, rfl, ?_⟩
    by_cases hc : c = '-'
    · exact Or.inl hc
    · right
      simp only [number, numberSign, if_neg hc] at h
      cases hip : numberIntPart (c :: r) with
      | none => rw [hip] at h; simp at h
      | some ip =>
        by_cases hz : c = '0'
        · subst hz
          decide
        · by_cases hnz : isNonzeroDigit c = true
          · exact isNonzeroDigit_isDigit hnz
          · simp [numberIntPart, hz, hnz] at hip

end Octave

namespace Octave

/-! ## Head shape and append behavior of the literal rule -/

theorem string_some_head {l : List Char} {p : List Char × List Char}
    (h : string l = some p) : ∃ c t, l = c :: t ∧ (c = '"' ∨ c = '\'') := by
  cases l with
  | nil => simp [string] at h
  | cons c r =>
    refine ⟨c, r, rfl, ?_⟩
    by_cases hq : c = '"'
    · exact Or.inl hq
    · by_cases hs : c = '\''
      · exact Or.inr hs
      · simp [string, hq, hs] at h

theorem identifier_some_head {l : List Char} {p : List Char × List Char}
    (h : identifier l = some p) : ∃ c t, l = c :: t ∧ identStart c = true := by
  cases l with
  | nil => simp [identifier] at h
  | cons c r =>
    refine ⟨c, r, rfl, ?_⟩
    by_cases hs : identStart c = true
    · exact hs
    · simp [identifier, hs] at h

theorem identifier_full {a v : List Char} (h : identifier a = some (v, [])) :
    ∃ c rest, a = c :: rest ∧ identStart c = true ∧ v = c :: rest ∧
      ∀ x ∈ rest, identCont x = true := by
  cases a with
  | nil => simp [identifier] at h
  | cons c rest =>
    by_cases hs : identStart c = true
    · simp [identifier, hs] at h
      obtain ⟨hv, hdrop⟩ := h
      have hall : ∀ x ∈ rest, identCont x = true := hdrop
      have htake : rest.takeWhile identCont = rest := List.takeWhile_eq_self_iff.mpr hall
      exact ⟨c, rest, rfl, hs, by rw [← hv, htake], hall⟩
    · simp [identifier, hs] at h

theorem literal_head_facts {x : List Char} {v : Lit} {r : List Char}
    (h : literal x = some (v, r)) : ∃ c t, x = c :: t ∧ isWS c = false ∧ c ≠ ',' := by
  simp only [literal] at h
  cases hstr : string x with
  | some p =>
    obtain ⟨c, t, rfl, hc⟩ := string_some_head hstr
    exact ⟨c, t, rfl, by rcases hc with rfl | rfl <;> decide,
      by rcases hc with rfl | rfl <;> decide⟩
  | none =>
    rw [hstr] at h
    cases hnum : number x with
    | some p =>
      obtain ⟨c, t, rfl, hc⟩ := number_some_head hnum
      have hr : c.toNat = 45 ∨ (48 ≤ c.toNat ∧ c.toNat ≤ 57) := by
        rcases hc with rfl | hd
        · exact Or.inl rfl
        · exact Or.inr (isDigit_toNat hd)
      exact ⟨c, t, rfl, isWS_eq_false (by omega),
        char_ne_of_toNat_ne (by have v : (',' : Char).toNat = 44 := rfl; omega)⟩
    | none =>
      rw [hnum] at h
      cases hid : identifier x with
      | none => rw [hid] at h; simp at h
      | some p =>
        obtain ⟨c, t, rfl, hs⟩ := identifier_some_head hid
        have hr := identStart_toNat hs
        exact ⟨c, t, rfl, (identStart_facts hs).1,
          char_ne_of_toNat_ne (by have v : (',' : Char).toNat = 44 := rfl; omega)⟩

/-- A rest whose head can extend no literal: not an identifier continuation
character and not a dot. -/
def litBoundary : List Char → Prop
  | [] => True
  | c :: _ => identCont c = false ∧ c ≠ '.'

theorem identCont_isDigit {c : Char} (hd : c.isDigit = true) : identCont c = true := by
  simp [identCont, hd]

theorem litBoundary_numBoundary {z : List Char} (h : litBoundary z) : numBoundary z := by
  cases z with
  | nil => trivial
  | cons c t =>
    have hdig : c.isDigit = false := by
      cases hd : c.isDigit with
      | false => rfl
      | true => exact absurd (identCont_isDigit hd) (by rw [h.1]; simp)
    refine ⟨hdig, h.2, ?_, ?_⟩
    · intro e
      subst e
      exact absurd h.1 (by decide)
    · intro e
      subst e
      exact absurd h.1 (by decide)

theorem litBoundary_headNotP {z : List Char} (h : litBoundary z) : headNotP identCont z := by
  cases z with
  | nil => trivial
  | cons c t => exact h.1

theorem literal_append {a : List Char} {v : Lit} (h : literal a = some (v, []))
    {z : List Char} (hz : litBoundary z) : literal (a ++ z) = some (v, z) := by
  simp only [literal] at h ⊢
  cases hstr : string a with
  | some p =>
    rw [hstr] at h
    simp at h
    obtain ⟨hv, hp2⟩ := h
    have hfull : string a = some (p.1, []) := by rw [hstr, pair_eta_eq p hp2]
    rw [string_append hfull z]
    simp [← hv]
  | none =>
    rw [hstr] at h
    cases hnum : number a with
    | some p =>
      rw [hnum] at h
      simp at h
      obtain ⟨hv, hp2⟩ := h
      have hfull : number a = some (p.1, []) := by rw [hnum, pair_eta_eq p hp2]
      have hpa : p.1 = a := number_full hfull
      rw [hpa] at hfull
      have happ : number (a ++ z) = some (a, z) :=
        number_append (number_NumberSpec hfull) (litBoundary_numBoundary hz)
      obtain ⟨c, t, he, hc⟩ := number_some_head hnum
      obtain ⟨-, -, hq1, hq2, -⟩ := numHead_facts hc
      have hstrz : string (a ++ z) = none := by
        rw [he]
        simpa using string_none_of_head hq1 hq2 (t ++ z)
      rw [hstrz, happ]
      simp [← hv, hpa]
    | none =>
      rw [hnum] at h
      cases hid : identifier a with
      | none => rw [hid] at h; simp at h
      | some p =>
        rw [hid] at h
        simp at h
        obtain ⟨hv, hp2⟩ := h
        have hfull : identifier a = some (p.1, []) := by rw [hid, pair_eta_eq p hp2]
        obtain ⟨c, rest, he, hs, hv1, hall⟩ := identifier_full hfull
        have hidz : identifier (a ++ z) = some (p.1, z) := by
          rw [he, hv1]
          simpa using identifier_complete c rest z hs hall (litBoundary_headNotP hz)
        obtain ⟨-, -, hm, hq1, hq2, -, hz0⟩ := identStart_facts hs
        have hnzd : isNonzeroDigit c = false := by
          simp [isNonzeroDigit, (identStart_facts hs).2.1]
        have hstrz : string (a ++ z) = none := by
          rw [he]
          simpa using string_none_of_head hq1 hq2 (rest ++ z)
        have hnumz : number (a ++ z) = none := by
          rw [he]
          simpa using number_none_of_head hm hz0 hnzd (rest ++ z)
        rw [hstrz, hnumz, hidz]
        simp [← hv]

end Octave

namespace Octave

/-! ## Claim C4: comma-separated and whitespace-separated matrix rows -/

theorem lineSep_nil : lineSep [] = none := rfl

theorem lineSep_comma {p q b : List Char} (hp : ∀ x ∈ p, isWS x = true)
    (hq : ∀ x ∈ q, isWS x = true) (hb : headNotP isWS b) :
    lineSep (p ++ ',' :: (q ++ b)) = some b := by
  have h1 : (p ++ ',' :: (q ++ b)).dropWhile isWS = ',' :: (q ++ b) :=
    dropWhile_append_all p _ hp (show isWS ',' = false from by decide)
  have h2 : (q ++ b).dropWhile isWS = b := dropWhile_append_all q b hq hb
  simp [lineSep, h1, h2]

theorem lineSep_ws {w : Char} {p' b : List Char} (hp : ∀ x ∈ w :: p', isWS x = true)
    (hb : headNotP isWS b) (hbc : ∀ c t, b = c :: t → c ≠ ',') :
    lineSep ((w :: p') ++ b) = some b := by
  have h1 : ((w :: p') ++ b).dropWhile isWS = b := dropWhile_append_all _ b hp hb
  have hw : isWS w = true := hp w (by simp)
  unfold lineSep
  rw [h1]
  cases b with
  | nil =>
    simp only [List.cons_append]
    simp [hw]
  | cons c t =>
    simp only [List.cons_append]
    simp [hw, hbc c t rfl]

theorem line_pair_comma {a b : List Char} {la lb : Lit} (ha : literal a = some (la, []))
    (hb : literal b = some (lb, [])) {p q : List Char} (hp : ∀ x ∈ p, isWS x = true)
    (hq : ∀ x ∈ q, isWS x = true) (f : Nat) :
    line (f + 2) (a ++ (p ++ ',' :: (q ++ b))) = some ([la, lb], []) := by
  obtain ⟨cb, tb, eb, hwb, hcb⟩ := literal_head_facts hb
  have hbnp : headNotP isWS b := by rw [eb]; exact hwb
  have hbound : litBoundary (p ++ ',' :: (q ++ b)) := by
    cases p with
    | nil => exact ⟨by decide, by decide⟩
    | cons w p' =>
      have hw := isWS_toNat (hp w (by simp))
      exact ⟨identCont_eq_false (by omega),
        char_ne_of_toNat_ne (by have v : ('.' : Char).toNat = 46 := rfl; omega)⟩
  have hla : literal (a ++ (p ++ ',' :: (q ++ b))) = some (la, p ++ ',' :: (q ++ b)) :=
    literal_append ha hbound
  have hsep : lineSep (p ++ ',' :: (q ++ b)) = some b := lineSep_comma hp hq hbnp
  simp [line, hla, lineTail, hsep, hb, lineSep_nil]

theorem line_pair_ws {a b : List Char} {la lb : Lit} (ha : literal a = some (la, []))
    (hb : literal b = some (lb, [])) {w : Char} {p' : List Char}
    (hp : ∀ x ∈ w :: p', isWS x = true) (f : Nat) :
    line (f + 2) (a ++ ((w :: p') ++ b)) = some ([la, lb], []) := by
  obtain ⟨cb, tb, eb, hwb, hcb⟩ := literal_head_facts hb
  have hbnp : headNotP isWS b := by rw [eb]; exact hwb
  have hbc : ∀ c t, b = c :: t → c ≠ ',' := by
    intro c t e hcomma
    rw [e] at eb
    injection eb with e1 e2
    exact hcb (e1.symm.trans hcomma)
  have hbound : litBoundary ((w :: p') ++ b) := by
    have hw := isWS_toNat (hp w (by simp))
    exact ⟨identCont_eq_false (by omega),
      char_ne_of_toNat_ne (by have v : ('.' : Char).toNat = 46 := rfl; omega)⟩
  have hla : literal (a ++ ((w :: p') ++ b)) = some (la, (w :: p') ++ b) :=
    literal_append ha hbound
  have hsep : lineSep ((w :: p') ++ b) = some b := lineSep_ws hp hbnp hbc
  have hla' : literal (a ++ w :: (p' ++ b)) = some (la, w :: (p' ++ b)) := by
    simpa using hla
  have hsep' : lineSep (w :: (p' ++ b)) = some b := by simpa using hsep
  simp [line, hla', lineTail, hsep', hb, lineSep_nil]

/-- C4: the two matrix-row separators are interchangeable. Concretely, the
comma-separated and the space-separated two-by-two matrices parse to the
identical Matrix tree; in general, inside a matrix row two literals joined
by a whitespace-padded comma or by one-or-more whitespace characters parse
to the same two-element row. -/
theorem c4_comma_and_whitespace_rows_identical :
    (parseL ['[', '1', ',', '2', ';', '3', ',', '4', ']'] =
        some [.exprStatement
          (.matrix [[.num ['1'], .num ['2']], [.num ['3'], .num ['4']]]) false] ∧
      parseL ['[', '1', ' ', '2', ';', '3', ' ', '4', ']'] =
        parseL ['[', '1', ',', '2', ';', '3', ',', '4', ']']) ∧
    ∀ (a b : List Char) (la lb : Lit) (f : Nat),
      literal a = some (la, []) → literal b = some (lb, []) →
      (∀ (p q : List Char), (∀ x ∈ p, isWS x = true) → (∀ x ∈ q, isWS x = true) →
        line (f + 2) (a ++ (p ++ ',' :: (q ++ b))) = some ([la, lb], [])) ∧
      ∀ (w : Char) (p' : List Char), (∀ x ∈ w :: p', isWS x = true) →
        line (f + 2) (a ++ ((w :: p') ++ b)) = some ([la, lb], []) := by
  refine ⟨⟨rfl, rfl⟩, ?_⟩
  intro a b la lb f ha hb
  exact ⟨fun p q hp hq => line_pair_comma ha hb hp hq f,
    fun w p' hp => line_pair_ws ha hb hp f⟩

/-- Witness for C4: the general row lemma applied to the literals 1 and 2
with a bare comma and with a single space. -/
theorem c4_witness :
    line 2 (['1'] ++ ([] ++ ',' :: ([] ++ ['2']))) = some ([.num ['1'], .num ['2']], []) ∧
      line 2 (['1'] ++ ((' ' :: []) ++ ['2'])) = some ([.num ['1'], .num ['2']], []) := by
  have h := c4_comma_and_whitespace_rows_identical.2 ['1'] ['2']
    (.num ['1']) (.num ['2']) 0 rfl rfl
  exact ⟨h.1 [] [] (by simp) (by simp), h.2 ' ' [] (by decide)⟩

end Octave

namespace Octave

/-! ## Claims C2, C3, C5, C6: concrete evaluations of the embedded grammar -/

/-- C2 evaluation: the single-quoted input quote a backslash n b quote fails
to parse, because char_simple's negative lookahead is over the sequence
quote-then-backslash rather than the alternation, so char_simple* consumes
the closing quote itself as a content character (third conjunct) and the
string rule then finds no closing quote (second conjunct). The double-quoted
unicode escape input decodes to the single character e-acute as the spec
says, showing the double-quoted side is intact. -/
theorem c2_single_quote_rule_behavior :
    parseL ['\'', 'a', '\\', 'n', 'b', '\''] = none ∧
      string ['\'', 'a', '\\', 'n', 'b', '\''] = none ∧
      charsSimple ['a', '\\', 'n', 'b', '\''] = (['a', '\\', 'n', 'b', '\''], []) ∧
      parseL ['"', '\\', 'u', '0', '0', 'e', '9', '"'] =
        some [.exprStatement (.lit (.str ['é'])) false] :=
  ⟨rfl, rfl, rfl, rfl⟩

/-- C3: a call is not a permitted literal inside a matrix row, so the matrix
containing f(1) fails to parse, while a matrix is a full expression and
therefore a valid call argument, so f applied to a matrix parses. -/
theorem c3_matrix_row_rejects_call_but_call_accepts_matrix :
    parseL ['[', 'f', '(', '1', ')', ',', '2', ']'] = none ∧
      parseL ['f', '(', '[', '1', ',', '2', ']', ')'] =
        some [.exprStatement (.call ['f'] [.matrix [[.num ['1'], .num ['2']]]]) false] :=
  ⟨rfl, rfl⟩

/-- C5: a Range expression has exactly two or three colon-separated parts:
1 colon 10 is the two-part range, 1 colon 2 colon 10 is the three-part
range, and a fourth part as in 1 colon 2 colon 3 colon 4 is not derivable,
so that parse fails at the leftover colon. -/
theorem c5_range_has_two_or_three_parts :
    parseL ['1', ':', '1', '0'] =
        some [.exprStatement (.range [.lit (.num ['1']), .lit (.num ['1', '0'])]) false] ∧
      parseL ['1', ':', '2', ':', '1', '0'] =
        some [.exprStatement
          (.range [.lit (.num ['1']), .lit (.num ['2']), .lit (.num ['1', '0'])]) false] ∧
      parseL ['1', ':', '2', ':', '3', ':', '4'] = none :=
  ⟨rfl, rfl, rfl⟩

/-- C6: the statement rule commits to assignment before the bare-expression
alternative: on the input a equals one plus two, both the assignment rule
and the expr rule succeed (an expression would stop after the identifier a),
and the statement rule returns the assignment; an identifier not followed by
an equals sign parses as an unsuppressed expression statement. -/
theorem c6_assignment_tried_before_expression :
    parseL ['a', ' ', '=', ' ', '1', '+', '2'] =
        some [.assignment ['a']
          (.binaryChain (.lit (.num ['1'])) [(.add, .lit (.num ['2']))])] ∧
      (assignment 20 ['a', ' ', '=', ' ', '1', '+', '2']).isSome = true ∧
      (expr 20 ['a', ' ', '=', ' ', '1', '+', '2']).isSome = true ∧
      statement 20 ['a', ' ', '=', ' ', '1', '+', '2'] =
        some (.assignment ['a']
          (.binaryChain (.lit (.num ['1'])) [(.add, .lit (.num ['2']))]), []) ∧
      parseL ['a', ' ', '+', ' ', '2'] =
        some [.exprStatement
          (.binaryChain (.lit (.ident ['a'])) [(.add, .lit (.num ['2']))]) false] :=
  ⟨rfl, rfl, rfl, rfl, rfl⟩

end Octave

namespace Octave

/-! ## Claim C10, revised: comment markers survive only inside string literals

MarkOk t says the text t is a sequence of single non-marker characters and
complete quote-delimited blocks; a percent or hash character can therefore
occur in t only inside such a block. We prove that everything the parser
consumes is MarkOk: the only rules that can consume arbitrary characters are
the char rules, which run strictly between a string's two delimiting quotes. -/

/-- Text in which every percent or hash character lies inside a complete
quote-delimited block. -/
inductive MarkOk : List Char → Prop
  | nil : MarkOk []
  | cons {c : Char} {t : List Char} : c ≠ '%' ∧ c ≠ '#' → MarkOk t → MarkOk (c :: t)
  | dquote (body : List Char) {t : List Char} : MarkOk t →
      MarkOk ('"' :: (body ++ '"' :: t))
  | squote (body : List Char) {t : List Char} : MarkOk t →
      MarkOk ('\'' :: (body ++ '\'' :: t))

theorem MarkOk.append {a b : List Char} (ha : MarkOk a) (hb : MarkOk b) :
    MarkOk (a ++ b) := by
  induction ha with
  | nil => exact hb
  | cons hc _ ih => exact MarkOk.cons hc ih
  | dquote body _ ih =>
    have : MarkOk ('"' :: (body ++ '"' :: (_ ++ b))) := MarkOk.dquote body ih
    simpa using this
  | squote body _ ih =>
    have : MarkOk ('\'' :: (body ++ '\'' :: (_ ++ b))) := MarkOk.squote body ih
    simpa using this

theorem MarkOk.of_noMark {t : List Char} (h : ∀ x ∈ t, x ≠ '%' ∧ x ≠ '#') : MarkOk t := by
  induction t with
  | nil => exact MarkOk.nil
  | cons c r ih =>
    exact MarkOk.cons (h c (by simp)) (ih fun x hx => h x (by simp [hx]))

/-- In MarkOk text, every marker occurrence has a quote somewhere before it. -/
theorem MarkOk.markGuarded {t : List Char} (h : MarkOk t) :
    ∀ t1 c t2, t = t1 ++ c :: t2 → (c = '%' ∨ c = '#') →
      ∃ q ∈ t1, q = '"' ∨ q = '\'' := by
  induction h with
  | nil =>
    intro t1 c t2 he hm
    exact absurd he (by simp)
  | @cons c0 t0 hc0 _ ih =>
    intro t1 c t2 he hm
    cases t1 with
    | nil =>
      injection he with h1 h2
      subst h1
      rcases hm with rfl | rfl
      · exact absurd rfl hc0.1
      · exact absurd rfl hc0.2
    | cons a t1' =>
      injection he with h1 h2
      obtain ⟨q, hq1, hq2⟩ := ih t1' c t2 h2 hm
      exact ⟨q, by simp [hq1], hq2⟩
  | @dquote body t0 _ ih =>
    intro t1 c t2 he hm
    cases t1 with
    | nil =>
      injection he with h1 h2
      subst h1
      rcases hm with h | h <;> exact absurd h (by decide)
    | cons a t1' =>
      injection he with h1 h2
      exact ⟨a, by simp, Or.inl h1.symm⟩
  | @squote body t0 _ ih =>
    intro t1 c t2 he hm
    cases t1 with
    | nil =>
      injection he with h1 h2
      subst h1
      rcases hm with h | h <;> exact absurd h (by decide)
    | cons a t1' =>
      injection he with h1 h2
      exact ⟨a, by simp, Or.inr h1.symm⟩

/-- The parser moved from input l to rest r consuming MarkOk text. -/
def Consumes (l r : List Char) : Prop := ∃ t, l = t ++ r ∧ MarkOk t

theorem consumes_refl (l : List Char) : Consumes l l := ⟨[], rfl, MarkOk.nil⟩

theorem consumes_trans {l m r : List Char} (h1 : Consumes l m) (h2 : Consumes m r) :
    Consumes l r := by
  obtain ⟨t1, rfl, g1⟩ := h1
  obtain ⟨t2, rfl, g2⟩ := h2
  exact ⟨t1 ++ t2, by simp, g1.append g2⟩

theorem isWS_noMark {x : Char} (h : isWS x = true) : x ≠ '%' ∧ x ≠ '#' := by
  have := isWS_toNat h
  have v1 : ('%' : Char).toNat = 37 := rfl
  have v2 : ('#' : Char).toNat = 35 := rfl
  exact ⟨char_ne_of_toNat_ne (by omega), char_ne_of_toNat_ne (by omega)⟩

theorem consumes_skipWS (l : List Char) : Consumes l (skipWS l) :=
  ⟨l.takeWhile isWS, (List.takeWhile_append_dropWhile isWS l).symm,
    MarkOk.of_noMark fun x hx => isWS_noMark (List.mem_takeWhile_imp hx)⟩

theorem consumes_cons {c : Char} (h : c ≠ '%' ∧ c ≠ '#') (r : List Char) :
    Consumes (c :: r) r := ⟨[c], rfl, MarkOk.of_noMark (by simpa using h)⟩

theorem consumes_append_noMark {t : List Char} (h : ∀ x ∈ t, x ≠ '%' ∧ x ≠ '#')
    (r : List Char) : Consumes (t ++ r) r := ⟨t, rfl, MarkOk.of_noMark h⟩

end Octave

namespace Octave

/-! ## The consumed text of each leaf rule is MarkOk -/

theorem identStart_noMark {c : Char} (h : identStart c = true) : c ≠ '%' ∧ c ≠ '#' := by
  have := identStart_toNat h
  have v1 : ('%' : Char).toNat = 37 := rfl
  have v2 : ('#' : Char).toNat = 35 := rfl
  exact ⟨char_ne_of_toNat_ne (by omega), char_ne_of_toNat_ne (by omega)⟩

theorem identCont_noMark {c : Char} (h : identCont c = true) : c ≠ '%' ∧ c ≠ '#' := by
  have := identCont_toNat h
  have v1 : ('%' : Char).toNat = 37 := rfl
  have v2 : ('#' : Char).toNat = 35 := rfl
  exact ⟨char_ne_of_toNat_ne (by omega), char_ne_of_toNat_ne (by omega)⟩

theorem isDigit_noMark {c : Char} (h : c.isDigit = true) : c ≠ '%' ∧ c ≠ '#' := by
  have := isDigit_toNat h
  have v1 : ('%' : Char).toNat = 37 := rfl
  have v2 : ('#' : Char).toNat = 35 := rfl
  exact ⟨char_ne_of_toNat_ne (by omega), char_ne_of_toNat_ne (by omega)⟩

theorem identifier_consumes {l : List Char} {p : List Char × List Char}
    (h : identifier l = some p) : Consumes l p.2 := by
  cases l with
  | nil => simp [identifier] at h
  | cons c r =>
    by_cases hs : identStart c = true
    · obtain ⟨p1, p2⟩ := p
      simp [identifier, hs] at h
      obtain ⟨h1, h2⟩ := h
      refine ⟨c :: r.takeWhile identCont, ?_, ?_⟩
      · rw [← h2]
        simp [List.takeWhile_append_dropWhile]
      · refine MarkOk.of_noMark ?_
        intro x hx
        rcases List.mem_cons.mp hx with rfl | hx
        · exact identStart_noMark hs
        · exact identCont_noMark (List.mem_takeWhile_imp hx)
    · simp [identifier, hs] at h

theorem NumberSpec_noMark {n : List Char} (h : NumberSpec n) :
    ∀ x ∈ n, x ≠ '%' ∧ x ≠ '#' := by
  obtain ⟨sg, ip, fp, ep, rfl, hsg, hip, hfp, hep⟩ := h
  intro x hx
  simp only [List.append_assoc, List.mem_append] at hx
  rcases hx with hx | hx | hx | hx
  · rcases hsg with rfl | rfl
    · simp at hx
    · simp at hx
      subst hx
      decide
  · rcases hip with rfl | ⟨c, ds, rfl, hc, hds⟩
    · simp at hx
      subst hx
      decide
    · rcases List.mem_cons.mp hx with rfl | hx
      · exact isDigit_noMark (isNonzeroDigit_isDigit hc)
      · exact isDigit_noMark (hds x hx)
  · rcases hfp with rfl | ⟨ds, rfl, hds⟩
    · simp at hx
    · rcases List.mem_cons.mp hx with rfl | hx
      · decide
      · exact isDigit_noMark (hds x hx)
  · rcases hep with rfl | ⟨e, sg2, ds, rfl, hee, hsg2, -, hds⟩
    · simp at hx
    · rcases List.mem_cons.mp hx with rfl | hx
      · rcases hee with rfl | rfl <;> decide
      · rcases List.mem_append.mp hx with hx | hx
        · rcases hsg2 with rfl | rfl | rfl
          · simp at hx
          · simp at hx
            subst hx
            decide
          · simp at hx
            subst hx
            decide
        · exact isDigit_noMark (hds x hx)

theorem number_NumberSpec_general {l : List Char} {p : List Char × List Char}
    (h : number l = some p) : NumberSpec p.1 := by
  simp only [number] at h
  cases hip : numberIntPart (numberSign l).2 with
  | none => rw [hip] at h; simp at h
  | some ip =>
    rw [hip] at h
    simp only [Option.some.injEq] at h
    exact ⟨(numberSign l).1, ip.1, (numberFrac ip.2).1, (numberExp (numberFrac ip.2).2).1,
      by rw [← h], numberSign_SignOk l, numberIntPart_IntOk hip,
      numberFrac_FracOk _, numberExp_ExpOk _⟩

theorem number_consumes {l : List Char} {p : List Char × List Char}
    (h : number l = some p) : Consumes l p.2 :=
  ⟨p.1, number_recon h, MarkOk.of_noMark (NumberSpec_noMark (number_NumberSpec_general h))⟩

end Octave

namespace Octave

/-! ## String, operator and separator consumption -/

theorem charsSimple_recon (t : List Char) : ∃ s, t = s ++ (charsSimple t).2 := by
  induction t using charsSimple.induct with
  | case1 => exact ⟨[], rfl⟩
  | case2 r => exact ⟨[], rfl⟩
  | case3 c r hne ih =>
    obtain ⟨s, hs⟩ := ih
    rw [charsSimple.eq_3 c r hne]
    exact ⟨c :: s, by simpa using hs⟩

theorem charsDouble_recon (t : List Char) : ∃ s, t = s ++ (charsDouble t).2 := by
  induction t using charsDouble.induct with
  | case1 => exact ⟨[], rfl⟩
  | case2 r => exact ⟨[], rfl⟩
  | case3 h1 h2 h3 h4 r hhex ih =>
    obtain ⟨s, hs⟩ := ih
    rw [charsDouble.eq_3 h1 h2 h3 h4 r, if_pos hhex]
    exact ⟨'\\' :: 'u' :: h1 :: h2 :: h3 :: h4 :: s, by simpa using hs⟩
  | case4 h1 h2 h3 h4 r hhex =>
    rw [charsDouble.eq_3 h1 h2 h3 h4 r, if_neg hhex]
    exact ⟨[], rfl⟩
  | case5 c r hnotu d' hesc ih =>
    obtain ⟨s, hs⟩ := ih
    rw [charsDouble.eq_4 c r hnotu, hesc]
    exact ⟨'\\' :: c :: s, by simpa using hs⟩
  | case6 c r hnotu hescn =>
    rw [charsDouble.eq_4 c r hnotu, hescn]
    exact ⟨[], rfl⟩
  | case7 => exact ⟨[], rfl⟩
  | case8 c r hne1 hne2 hne3 hne4 ih =>
    obtain ⟨s, hs⟩ := ih
    rw [charsDouble.eq_6 c r hne1 hne2 hne3 hne4]
    exact ⟨c :: s, by simpa using hs⟩

theorem string_consumes {l : List Char} {p : List Char × List Char}
    (h : string l = some p) : Consumes l p.2 := by
  obtain ⟨p1, p2⟩ := p
  cases l with
  | nil => simp [string] at h
  | cons c r =>
    by_cases hq : c = '"'
    · subst hq
      simp only [string, if_pos rfl] at h
      cases hu : (charsDouble r).2 with
      | nil => rw [hu] at h; simp at h
      | cons c2 r2 =>
        rw [hu] at h
        by_cases hc2 : c2 = '"'
        · subst hc2
          simp only [if_true, eq_self_iff_true, Option.some.injEq, Prod.mk.injEq] at h
          obtain ⟨h1, h2⟩ := h
          subst h2
          obtain ⟨s, hs⟩ := charsDouble_recon r
          rw [hu] at hs
          exact ⟨'"' :: (s ++ ['"']), by simp [hs], MarkOk.dquote s MarkOk.nil⟩
        · simp [hc2] at h
    · by_cases hsq : c = '\''
      · subst hsq
        simp only [string, if_neg (show ¬('\'' : Char) = '"' from by decide),
          if_pos rfl] at h
        cases hu : (charsSimple r).2 with
        | nil => rw [hu] at h; simp at h
        | cons c2 r2 =>
          rw [hu] at h
          by_cases hc2 : c2 = '\''
          · subst hc2
            simp only [if_true, eq_self_iff_true, Option.some.injEq, Prod.mk.injEq] at h
            obtain ⟨h1, h2⟩ := h
            subst h2
            obtain ⟨s, hs⟩ := charsSimple_recon r
            rw [hu] at hs
            exact ⟨'\'' :: (s ++ ['\'']), by simp [hs], MarkOk.squote s MarkOk.nil⟩
          · simp [hc2] at h
      · simp [string, hq, hsq] at h

theorem literal_consumes {l : List Char} {p : Lit × List Char}
    (h : literal l = some p) : Consumes l p.2 := by
  simp only [literal] at h
  cases hstr : string l with
  | some q =>
    rw [hstr] at h
    simp only [Option.some.injEq] at h
    have := string_consumes hstr
    rw [← h]
    exact this
  | none =>
    rw [hstr] at h
    cases hnum : number l with
    | some q =>
      rw [hnum] at h
      simp only [Option.some.injEq] at h
      have := number_consumes hnum
      rw [← h]
      exact this
    | none =>
      rw [hnum] at h
      cases hid : identifier l with
      | none => rw [hid] at h; simp at h
      | some q =>
        rw [hid] at h
        simp only [Option.some.injEq] at h
        have := identifier_consumes hid
        rw [← h]
        exact this

theorem op_consumes {l : List Char} {p : Op × List Char} (h : op l = some p) :
    Consumes l p.2 := by
  obtain ⟨p1, p2⟩ := p
  cases l with
  | nil => simp [op] at h
  | cons c r =>
    simp only [op] at h
    split_ifs at h with h1 h2 h3 h4 h5 h6 <;>
      first
      | (subst_vars
         simp only [Option.some.injEq, Prod.mk.injEq] at h
         rw [← h.2]
         exact consumes_cons (by decide) r)
      | simp at h

theorem callClose_consumes {id : List Char} {args : List Expr} {l : List Char}
    {p : Expr × List Char} (h : callClose id args l = some p) : Consumes l p.2 := by
  obtain ⟨p1, p2⟩ := p
  simp only [callClose] at h
  cases hs : skipWS l with
  | nil => rw [hs] at h; simp at h
  | cons c r =>
    simp only [hs] at h
    by_cases hc : c = ')'
    · rw [if_pos hc] at h
      simp only [Option.some.injEq, Prod.mk.injEq] at h
      obtain ⟨h1, h2⟩ := h
      rw [← h2]
      subst hc
      exact consumes_trans (hs ▸ consumes_skipWS l) (consumes_cons (by decide) r)
    · rw [if_neg hc] at h
      simp at h

theorem lineSep_consumes {l r : List Char} (h : lineSep l = some r) : Consumes l r := by
  cases l with
  | nil => rw [lineSep_nil] at h; simp at h
  | cons c0 l' =>
    simp only [lineSep] at h
    cases hd : (c0 :: l').dropWhile isWS with
    | cons c r1 =>
      have hd2 : skipWS (c0 :: l') = c :: r1 := hd
      simp only [hd] at h
      by_cases hc : c = ','
      · rw [if_pos hc] at h
        simp only [Option.some.injEq] at h
        rw [← h]
        subst hc
        exact consumes_trans (hd2 ▸ consumes_skipWS (c0 :: l'))
          (consumes_trans (@consumes_cons ',' (by decide) r1) (consumes_skipWS r1))
      · rw [if_neg hc] at h
        by_cases hw : isWS c0 = true
        · rw [if_pos hw] at h
          simp only [Option.some.injEq] at h
          rw [← h]
          exact hd2 ▸ consumes_skipWS (c0 :: l')
        · rw [if_neg hw] at h
          simp at h
    | nil =>
      have hd2 : skipWS (c0 :: l') = [] := hd
      simp only [hd] at h
      by_cases hw : isWS c0 = true
      · rw [if_pos hw] at h
        simp only [Option.some.injEq] at h
        rw [← h]
        exact hd2 ▸ consumes_skipWS (c0 :: l')
      · rw [if_neg hw] at h
        simp at h

end Octave

namespace Octave

/-! ## Consumption invariant for rows and the whole expression grammar -/

theorem lineTail_consumes : ∀ f acc l p, lineTail f acc l = some p → Consumes l p.2 := by
  intro f
  induction f with
  | zero => intro acc l p h; simp [lineTail] at h
  | succ f ih =>
    intro acc l p h
    simp only [lineTail] at h
    cases hs : lineSep l with
    | none =>
      simp only [hs, Option.some.injEq] at h
      rw [← h]
      exact consumes_refl l
    | some r1 =>
      simp only [hs] at h
      cases hl : literal r1 with
      | none =>
        simp only [hl, Option.some.injEq] at h
        rw [← h]
        exact consumes_refl l
      | some q =>
        simp only [hl] at h
        exact consumes_trans (lineSep_consumes hs)
          (consumes_trans (literal_consumes hl) (ih _ _ _ h))

theorem line_consumes (f : Nat) (l : List Char) (p : List Lit × List Char)
    (h : line f l = some p) : Consumes l p.2 := by
  simp only [line] at h
  cases hl : literal l with
  | none =>
    simp only [hl, Option.some.injEq] at h
    rw [← h]
    exact consumes_refl l
  | some q =>
    simp only [hl] at h
    exact consumes_trans (literal_consumes hl) (lineTail_consumes f _ _ _ h)

theorem parser_consumes : ∀ f,
    (∀ l p, expr f l = some p → Consumes l p.2) ∧
    (∀ l p, range_operand f l = some p → Consumes l p.2) ∧
    (∀ l p, binary f l = some p → Consumes l p.2) ∧
    (∀ acc l p, binaryTail f acc l = some p → Consumes l p.2) ∧
    (∀ l p, atom f l = some p → Consumes l p.2) ∧
    (∀ l p, call f l = some p → Consumes l p.2) ∧
    (∀ acc l p, callArgs f acc l = some p → Consumes l p.2) ∧
    (∀ l p, value f l = some p → Consumes l p.2) ∧
    (∀ l p, matrix f l = some p → Consumes l p.2) ∧
    (∀ acc l p, matrixTail f acc l = some p → Consumes l p.2) := by
  intro f
  induction f with
  | zero =>
    exact ⟨fun l p h => Option.noConfusion h, fun l p h => Option.noConfusion h,
      fun l p h => Option.noConfusion h, fun acc l p h => Option.noConfusion h,
      fun l p h => Option.noConfusion h, fun l p h => Option.noConfusion h,
      fun acc l p h => Option.noConfusion h, fun l p h => Option.noConfusion h,
      fun l p h => Option.noConfusion h, fun acc l p h => Option.noConfusion h⟩
  | succ f ih =>
    obtain ⟨ihe, ihro, ihb, ihbt, iha, ihc, ihca, ihv, ihm, ihmt⟩ := ih
    refine ⟨?_, ?_, ?_, ?_, ?_, ?_, ?_, ?_, ?_, ?_⟩
    · intro l p h
      simp only [expr.eq_2] at h
      cases h1 : range_operand f l with
      | none => simp only [h1] at h; exact Option.noConfusion h
      | some p1 =>
        simp only [h1] at h
        have s1 : Consumes l p1.2 := ihro l p1 h1
        cases h2 : skipWS p1.2 with
        | nil =>
          simp only [h2, Option.some.injEq] at h
          rw [← h]
          exact s1
        | cons c r2 =>
          simp only [h2] at h
          by_cases hc : c = ':'
          · rw [if_pos hc] at h
            have hnc : c ≠ '%' ∧ c ≠ '#' := by subst hc; exact (by decide)
            have sc : Consumes l (skipWS r2) :=
              consumes_trans s1 (consumes_trans (h2 ▸ consumes_skipWS p1.2)
                (consumes_trans (consumes_cons hnc r2) (consumes_skipWS r2)))
            cases h3 : range_operand f (skipWS r2) with
            | none =>
              simp only [h3, Option.some.injEq] at h
              rw [← h]
              exact s1
            | some q =>
              simp only [h3] at h
              have s3 : Consumes l q.2 := consumes_trans sc (ihro _ q h3)
              cases h4 : skipWS q.2 with
              | nil =>
                simp only [h4, Option.some.injEq] at h
                rw [← h]
                exact s3
              | cons c2 r4 =>
                simp only [h4] at h
                by_cases hc2 : c2 = ':'
                · rw [if_pos hc2] at h
                  have hnc2 : c2 ≠ '%' ∧ c2 ≠ '#' := by subst hc2; exact (by decide)
                  have sc2 : Consumes l (skipWS r4) :=
                    consumes_trans s3 (consumes_trans (h4 ▸ consumes_skipWS q.2)
                      (consumes_trans (consumes_cons hnc2 r4) (consumes_skipWS r4)))
                  cases h5 : range_operand f (skipWS r4) with
                  | none =>
                    simp only [h5, Option.some.injEq] at h
                    rw [← h]
                    exact s3
                  | some t =>
                    simp only [h5, Option.some.injEq] at h
                    rw [← h]
                    exact consumes_trans sc2 (ihro _ t h5)
                · rw [if_neg hc2] at h
                  simp only [Option.some.injEq] at h
                  rw [← h]
                  exact s3
          · rw [if_neg hc] at h
            simp only [Option.some.injEq] at h
            rw [← h]
            exact s1
    · intro l p h
      simp only [range_operand.eq_2] at h
      cases h1 : binary f l with
      | some q =>
        simp only [h1, Option.some.injEq] at h
        rw [← h]
        exact ihb l q h1
      | none =>
        simp only [h1] at h
        exact ihv l p h
    · intro l p h
      simp only [binary.eq_2] at h
      cases h1 : atom f l with
      | none => simp only [h1] at h; exact Option.noConfusion h
      | some p1 =>
        simp only [h1] at h
        cases h2 : binaryTail f [] p1.2 with
        | none => simp only [h2] at h; exact Option.noConfusion h
        | some q =>
          simp only [h2] at h
          have sq : Consumes l q.2 := consumes_trans (iha l p1 h1) (ihbt [] p1.2 q h2)
          cases hq1 : q.1 with
          | nil =>
            simp only [hq1, Option.some.injEq] at h
            rw [← h]
            exact sq
          | cons a as =>
            simp only [hq1, Option.some.injEq] at h
            rw [← h]
            exact sq
    · intro acc l p h
      simp only [binaryTail.eq_2] at h
      cases h1 : op (skipWS l) with
      | none =>
        simp only [h1, Option.some.injEq] at h
        rw [← h]
        exact consumes_refl l
      | some o =>
        simp only [h1] at h
        cases h2 : atom f (skipWS o.2) with
        | none =>
          simp only [h2, Option.some.injEq] at h
          rw [← h]
          exact consumes_refl l
        | some p1 =>
          simp only [h2] at h
          exact consumes_trans (consumes_skipWS l)
            (consumes_trans (op_consumes h1)
              (consumes_trans (consumes_skipWS o.2)
                (consumes_trans (iha _ p1 h2) (ihbt _ p1.2 p h))))
    · intro l p h
      simp only [atom.eq_2] at h
      cases h1 : call f l with
      | some q =>
        simp only [h1, Option.some.injEq] at h
        rw [← h]
        exact ihc l q h1
      | none =>
        simp only [h1] at h
        exact ihv l p h
    · intro l p h
      simp only [call.eq_2] at h
      cases h1 : identifier l with
      | none => simp only [h1] at h; exact Option.noConfusion h
      | some idp =>
        simp only [h1] at h
        cases h2 : skipWS idp.2 with
        | nil => simp only [h2] at h; exact Option.noConfusion h
        | cons c r2 =>
          simp only [h2] at h
          by_cases hc : c = '('
          · rw [if_pos hc] at h
            have hnc : c ≠ '%' ∧ c ≠ '#' := by subst hc; exact (by decide)
            have sr2 : Consumes l r2 :=
              consumes_trans (identifier_consumes h1)
                (consumes_trans (h2 ▸ consumes_skipWS idp.2) (consumes_cons hnc r2))
            cases h3 : expr f (skipWS r2) with
            | none =>
              simp only [h3] at h
              exact consumes_trans sr2 (callClose_consumes h)
            | some e1 =>
              simp only [h3] at h
              cases h4 : callArgs f [e1.1] e1.2 with
              | none => simp only [h4] at h; exact Option.noConfusion h
              | some a =>
                simp only [h4] at h
                exact consumes_trans sr2
                  (consumes_trans (consumes_skipWS r2)
                    (consumes_trans (ihe _ e1 h3)
                      (consumes_trans (ihca _ _ a h4) (callClose_consumes h))))
          · rw [if_neg hc] at h
            exact Option.noConfusion h
    · intro acc l p h
      simp only [callArgs.eq_2] at h
      cases h1 : skipWS l with
      | nil =>
        simp only [h1, Option.some.injEq] at h
        rw [← h]
        exact consumes_refl l
      | cons c r1 =>
        simp only [h1] at h
        by_cases hc : c = ','
        · rw [if_pos hc] at h
          have hnc : c ≠ '%' ∧ c ≠ '#' := by subst hc; exact (by decide)
          cases h2 : expr f (skipWS r1) with
          | none =>
            simp only [h2, Option.some.injEq] at h
            rw [← h]
            exact consumes_refl l
          | some p1 =>
            simp only [h2] at h
            exact consumes_trans (h1 ▸ consumes_skipWS l)
              (consumes_trans (consumes_cons hnc r1)
                (consumes_trans (consumes_skipWS r1)
                  (consumes_trans (ihe _ p1 h2) (ihca _ _ p h))))
        · rw [if_neg hc] at h
          simp only [Option.some.injEq] at h
          rw [← h]
          exact consumes_refl l
    · intro l p h
      simp only [value.eq_2] at h
      cases h1 : matrix f l with
      | some q =>
        simp only [h1, Option.some.injEq] at h
        rw [← h]
        exact ihm l q h1
      | none =>
        simp only [h1] at h
        cases h2 : literal l with
        | none => simp only [h2] at h; exact Option.noConfusion h
        | some q =>
          simp only [h2, Option.some.injEq] at h
          rw [← h]
          exact literal_consumes h2
    · intro l p h
      cases l with
      | nil =>
        rw [matrix_nil] at h
        exact Option.noConfusion h
      | cons c r1 =>
        simp only [matrix.eq_2] at h
        by_cases hc : c = '['
        · rw [if_pos hc] at h
          have hnc : c ≠ '%' ∧ c ≠ '#' := by subst hc; exact (by decide)
          cases h2 : line f (skipWS r1) with
          | none => simp only [h2] at h; exact Option.noConfusion h
          | some row1 =>
            simp only [h2] at h
            cases h3 : matrixTail f [row1.1] row1.2 with
            | none => simp only [h3] at h; exact Option.noConfusion h
            | some rows =>
              simp only [h3] at h
              have srows : Consumes (c :: r1) rows.2 :=
                consumes_trans (consumes_cons hnc r1)
                  (consumes_trans (consumes_skipWS r1)
                    (consumes_trans (line_consumes f _ row1 h2) (ihmt _ _ rows h3)))
              cases h4 : skipWS rows.2 with
              | nil => simp only [h4] at h; exact Option.noConfusion h
              | cons c2 r4 =>
                simp only [h4] at h
                by_cases hc2 : c2 = ']'
                · rw [if_pos hc2] at h
                  simp only [Option.some.injEq] at h
                  rw [← h]
                  have hnc2 : c2 ≠ '%' ∧ c2 ≠ '#' := by subst hc2; exact (by decide)
                  exact consumes_trans srows
                    (consumes_trans (h4 ▸ consumes_skipWS rows.2) (consumes_cons hnc2 r4))
                · rw [if_neg hc2] at h
                  exact Option.noConfusion h
        · rw [if_neg hc] at h
          exact Option.noConfusion h
    · intro acc l p h
      simp only [matrixTail.eq_2] at h
      cases h1 : skipWS l with
      | nil =>
        simp only [h1, Option.some.injEq] at h
        rw [← h]
        exact consumes_refl l
      | cons c r1 =>
        simp only [h1] at h
        by_cases hc : c = ';'
        · rw [if_pos hc] at h
          have hnc : c ≠ '%' ∧ c ≠ '#' := by subst hc; exact (by decide)
          cases h2 : line f (skipWS r1) with
          | none => simp only [h2] at h; exact Option.noConfusion h
          | some row =>
            simp only [h2] at h
            exact consumes_trans (h1 ▸ consumes_skipWS l)
              (consumes_trans (consumes_cons hnc r1)
                (consumes_trans (consumes_skipWS r1)
                  (consumes_trans (line_consumes f _ row h2) (ihmt _ _ p h))))
        · rw [if_neg hc] at h
          simp only [Option.some.injEq] at h
          rw [← h]
          exact consumes_refl l

end Octave

namespace Octave

/-! ## Consumption invariant for the statement layer and the new C10 -/

theorem assignment_consumes : ∀ f l p, assignment f l = some p → Consumes l p.2 := by
  intro f l p h
  cases f with
  | zero => exact Option.noConfusion h
  | succ f =>
    simp only [assignment] at h
    cases h1 : identifier l with
    | none => simp only [h1] at h; exact Option.noConfusion h
    | some idp =>
      simp only [h1] at h
      cases h2 : skipWS idp.2 with
      | nil => simp only [h2] at h; exact Option.noConfusion h
      | cons c r =>
        simp only [h2] at h
        by_cases hc : c = '='
        · rw [if_pos hc] at h
          have hnc : c ≠ '%' ∧ c ≠ '#' := by subst hc; exact (by decide)
          cases h3 : expr f (skipWS r) with
          | none => simp only [h3] at h; exact Option.noConfusion h
          | some q =>
            simp only [h3, Option.some.injEq] at h
            rw [← h]
            exact consumes_trans (identifier_consumes h1)
              (consumes_trans (h2 ▸ consumes_skipWS idp.2)
                (consumes_trans (consumes_cons hnc r)
                  (consumes_trans (consumes_skipWS r)
                    ((parser_consumes f).1 _ q h3))))
        · rw [if_neg hc] at h
          exact Option.noConfusion h

theorem statement_consumes : ∀ f l p, statement f l = some p → Consumes l p.2 := by
  intro f l p h
  cases f with
  | zero => exact Option.noConfusion h
  | succ f =>
    simp only [statement] at h
    cases h1 : assignment f l with
    | some q =>
      simp only [h1, Option.some.injEq] at h
      rw [← h]
      exact assignment_consumes f l q h1
    | none =>
      simp only [h1] at h
      cases h2 : expr f l with
      | none => simp only [h2] at h; exact Option.noConfusion h
      | some q =>
        simp only [h2, Option.some.injEq] at h
        rw [← h]
        exact (parser_consumes f).1 _ q h2

theorem statement_semi_consumes : ∀ f l p, statement_semi f l = some p → Consumes l p.2 := by
  intro f l p h
  cases f with
  | zero => exact Option.noConfusion h
  | succ f =>
    simp only [statement_semi] at h
    cases h1 : statement f l with
    | none => simp only [h1] at h; exact Option.noConfusion h
    | some q =>
      simp only [h1] at h
      cases h2 : skipWS q.2 with
      | nil => simp only [h2] at h; exact Option.noConfusion h
      | cons c r =>
        simp only [h2] at h
        by_cases hc : c = ';'
        · rw [if_pos hc] at h
          simp only [Option.some.injEq] at h
          rw [← h]
          have hnc : c ≠ '%' ∧ c ≠ '#' := by subst hc; exact (by decide)
          exact consumes_trans (statement_consumes f l q h1)
            (consumes_trans (h2 ▸ consumes_skipWS q.2) (consumes_cons hnc r))
        · rw [if_neg hc] at h
          exact Option.noConfusion h

theorem statements_consumes : ∀ f l p, statements f l = some p → Consumes l p.2 := by
  intro f
  induction f with
  | zero => intro l p h; exact Option.noConfusion h
  | succ f ih =>
    intro l p h
    simp only [statements] at h
    cases h1 : statement_semi f l with
    | some q =>
      simp only [h1] at h
      cases h2 : statements f (skipWS q.2) with
      | none => simp only [h2] at h; exact Option.noConfusion h
      | some t =>
        simp only [h2, Option.some.injEq] at h
        rw [← h]
        exact consumes_trans (statement_semi_consumes f l q h1)
          (consumes_trans (consumes_skipWS q.2) (ih _ t h2))
    | none =>
      simp only [h1] at h
      cases h3 : statement f l with
      | some q =>
        simp only [h3] at h
        cases h4 : statements f (skipWS q.2) with
        | none => simp only [h4] at h; exact Option.noConfusion h
        | some t =>
          simp only [h4, Option.some.injEq] at h
          rw [← h]
          exact consumes_trans (statement_consumes f l q h3)
            (consumes_trans (consumes_skipWS q.2) (ih _ t h4))
      | none =>
        simp only [h3, Option.some.injEq] at h
        rw [← h]
        exact consumes_refl l

theorem toplevel_consumes {f : Nat} {l : List Char} {prog : Program}
    (h : toplevel f l = some prog) :
    ∃ T r, l = T ++ r ∧ MarkOk T ∧ ∀ x ∈ r, isWS x = true := by
  cases f with
  | zero => exact Option.noConfusion h
  | succ f =>
    simp only [toplevel] at h
    cases h1 : statements f (skipWS l) with
    | none => simp only [h1] at h; exact Option.noConfusion h
    | some p =>
      simp only [h1] at h
      by_cases he : skipWS p.2 = []
      · obtain ⟨t, ht, hmk⟩ := statements_consumes f _ p h1
        have hws : ∀ x ∈ p.2, isWS x = true := by
          intro x hx
          by_contra hbad
          have := List.dropWhile_eq_nil_iff.mp he
          exact hbad (this x hx)
        refine ⟨l.takeWhile isWS ++ t, p.2, ?_, ?_, hws⟩
        · rw [List.append_assoc, ← ht]
          exact (List.takeWhile_append_dropWhile isWS l).symm
        · exact MarkOk.append
            (MarkOk.of_noMark fun x hx => isWS_noMark (List.mem_takeWhile_imp hx)) hmk
      · rw [if_neg he] at h
        exact Option.noConfusion h

theorem parseL_markOk {l : List Char} {prog : Program} (h : parseL l = some prog) :
    MarkOk l := by
  obtain ⟨T, r, hl, hT, hr⟩ := toplevel_consumes h
  rw [hl]
  exact MarkOk.append hT (MarkOk.of_noMark fun x hx => isWS_noMark (hr x hx))

/-- C10: the grammar has no comment support (its COMMENT rule is commented
out), so a comment marker, percent or hash, outside a string literal makes
the whole-document parse fail instead of skipping the rest of the line.
First conjunct: any input the parser accepts is markOk, i.e. every percent
or hash in it lies inside a complete quote-delimited block, so any input
with a marker outside all string literals fails. Second conjunct, concretely:
whenever no quote character precedes the marker, wherever the marker sits
(after a statement, on a later line), the parse fails. -/
theorem c10_comment_marker_fails_parse :
    (∀ l prog, parseL l = some prog → MarkOk l) ∧
    (∀ pre post c, (c = '%' ∨ c = '#') → (∀ q ∈ pre, q ≠ '"' ∧ q ≠ '\'') →
      parseL (pre ++ c :: post) = none) := by
  constructor
  · intro l prog h
    exact parseL_markOk h
  · intro pre post c hc hpre
    cases hres : parseL (pre ++ c :: post) with
    | none => rfl
    | some prog =>
      exfalso
      have hmk : MarkOk (pre ++ c :: post) := parseL_markOk hres
      obtain ⟨q, hq, hquote⟩ := hmk.markGuarded pre c post rfl hc
      rcases hquote with e | e
      · exact (hpre q hq).1 e
      · exact (hpre q hq).2 e

/-- Witness for C10: a marker after a complete statement on the same line,
and a marker on a second line after a statement, both fail to parse. -/
theorem c10_witness :
    parseL (['x', ' ', '=', ' ', '1', ' '] ++ '%' :: [' ', 'c']) = none ∧
      parseL (['a', '\n'] ++ '#' :: [' ', 'c']) = none :=
  ⟨c10_comment_marker_fails_parse.2 ['x', ' ', '=', ' ', '1', ' '] [' ', 'c'] '%'
      (Or.inl rfl) (by decide),
    c10_comment_marker_fails_parse.2 ['a', '\n'] [' ', 'c'] '#'
      (Or.inr rfl) (by decide)⟩

end Octave
